import Mathlib

/-!
# Verification of `bootloader.c` (SD-card bootloader for an STM32F1)

A shallow embedding of `src/bootloader/bootloader.c`.

* Bytes are `Fin 256` (`uint8_t`), 32-bit quantities are `Nat` reduced `% 2^32`
  where the C arithmetic can wrap.
* The flash is a map from byte address to byte.  The HAL primitives are external to the
  repository and are modelled ideally: `HAL_FLASHEx_Erase` of one page sets the
  `PAGESIZE` bytes of that page to `0xFF`, `HAL_FLASH_Program` of a word stores the four
  bytes of the word (little endian), `HAL_FLASH_Unlock` only shows up in the call trace.
* The FatFs driver is external: `f_mount` and `f_open` return a result code taken from the
  environment, `f_read` copies the next bytes of the file into the buffer and reports how
  many it copied.
* `boot()` ends in the naked `startApplication` (`msr msp, r0; bx r1`), which never comes
  back: a run of `bootloader()` ends at its first `boot()` call.
* Every call that `bootloader()` itself makes is recorded, in order, in a trace of `Call`s.
* `boot` gives the processor actions of `boot()` on a flash, `led_sequence` the calls of
  `led_sequence()`, and `programPageWrites` the word writes of `programPage()`.
-/

namespace Bootloader

/-! ## Constants -/

/-- The C type `uint8_t`. -/
abbrev Byte := Fin 256

/-- The on-chip flash, byte address to byte. -/
abbrev Flash := Nat → Byte

/-- Line 17: `#define FIRSTPAGE 10`. -/
def FIRSTPAGE : Nat := 10

/-- Line 18: `#define LASTPAGE 248`. -/
def LASTPAGE : Nat := 248

/-- Modelled from the spec: the macro `PAGESIZE` comes from a header that is not part of
the sources at hand.  The page size is "a fixed constant equal to the chunk size read from
the image", the page buffer is `pagedat[2048]` and `programPage` is handed `2048` bytes. -/
def PAGESIZE : Nat := 2048

/-- Start of the flash in the address space (`FLASH_BASE` of the STM32F1 HAL,
`0x08000000`). -/
def FLASH_BASE : Nat := 0x08000000

/-- `FLASH_BASE + PAGESIZE * pagenr` in `uint32_t` arithmetic. -/
def pageAddr (pagenr : Nat) : Nat := (FLASH_BASE + PAGESIZE * pagenr) % 2 ^ 32

/-! ## Data model -/

/-- Lines 20-24: `sequence_t`. -/
inductive sequence_t where
  | NO_SDCARD
  | PROGRAMMED
  | JUST_BOOTED
  deriving DecidableEq, Repr

/-- The calls made by the body of `bootloader()`, with their arguments. -/
inductive Call where
  | gpio_ll_read
  | f_mount
  | f_open
  | f_read (btr : Nat)
  | led_swich (led0 led1 led2 led3 : Nat)
  | HAL_FLASH_Unlock
  | erasePage (pagenr : Nat)
  | programPage (pagenr : Nat) (data : List Byte) (size : Nat)
  | led_sequence (sequence : sequence_t)
  | boot
  deriving DecidableEq, Repr

/-- What the hardware and the card give to one run of `bootloader()`. -/
structure Env where
  /-- Value of `gpio_ll_read(CARD_DETECT_GPIO_Port, CARD_DETECT_Pin)`. -/
  cardDetect : Nat
  /-- The `FRESULT` of `f_mount` (`0` is `FR_OK`). -/
  mountRes : Nat
  /-- The `FRESULT` of `f_open` (`0` is `FR_OK`). -/
  openRes : Nat
  /-- The bytes of `binary.bin`. -/
  image : List Byte

/-- State of the `while` loop of `bootloader()`: the locals `page` and `programmed`, the
unread rest of the file, the global buffer `pagedat`, the flash and the calls so far. -/
structure LoopState where
  page : Nat
  programmed : Nat
  file : List Byte
  pagedat : List Byte
  flash : Flash
  calls : List Call

/-- Result of a run of `bootloader()`: the calls it made, in order, and the flash at the
moment control is handed to the application. -/
structure Run where
  calls : List Call
  flash : Flash

/-! ## Library and HAL primitives -/

/-- `memset(buf, c, n)` on a buffer: the first `n` bytes become `c`. -/
def memset (buf : List Byte) (c : Byte) (n : Nat) : List Byte :=
  List.replicate n c ++ buf.drop n

/-- `f_read(&file, buf, btr, &len)`: the next `min btr (bytes left)` bytes of the file
overwrite the start of `buf`.  Gives the new buffer, `len`, and the unread rest. -/
def f_read (file buf : List Byte) (btr : Nat) : List Byte × Nat × List Byte :=
  (file.take btr ++ buf.drop (file.take btr).length, (file.take btr).length, file.drop btr)

/-- `memcmp(flashpointer, buf, len)` where `flashpointer` is the flash address `addr`:
`0` if the first `len` bytes agree, otherwise the difference of the first two bytes that
do not. -/
def memcmp (fl : Flash) (addr : Nat) : List Byte → Nat → Int
  | _, 0 => 0
  | [], _ + 1 => 0
  | b :: bs, n + 1 =>
    if fl addr = b then memcmp fl (addr + 1) bs n else ((fl addr).val : Int) - (b.val : Int)

/-- Byte `k` (`0` is the least significant) of a 32-bit word. -/
def wordByte (w k : Nat) : Byte := ⟨(w / 256 ^ k) % 256, Nat.mod_lt _ (by decide)⟩

/-- `*data32`: the little-endian 32-bit word at the start of `data`. -/
def word32 (data : List Byte) : Nat :=
  (data.getD 0 0).val + 256 * (data.getD 1 0).val + 65536 * (data.getD 2 0).val
    + 16777216 * (data.getD 3 0).val

/-- `HAL_FLASH_Program(FLASH_TYPEPROGRAM_WORD, addr, w)` on an ideal flash: the four bytes
of `w` are stored at `addr .. addr + 3`. -/
def HAL_FLASH_Program (addr w : Nat) (fl : Flash) : Flash :=
  fun a => if addr ≤ a ∧ a < addr + 4 then wordByte w (a - addr) else fl a

/-- `HAL_FLASHEx_Erase` of the single page at `addr` on an ideal flash: its `PAGESIZE`
bytes read `0xFF` afterwards. -/
def HAL_FLASHEx_Erase (addr : Nat) (fl : Flash) : Flash :=
  fun a => if addr ≤ a ∧ a < addr + PAGESIZE then 0xFF else fl a

/-! ## The functions of `bootloader.c` -/

/-- Lines 91-99: `erasePage`. -/
def erasePage (pagenr : Nat) (fl : Flash) : Flash :=
  HAL_FLASHEx_Erase (pageAddr pagenr) fl

/-- Lines 106-111: the `while (size)` loop of `programPage`; the first argument is the
loop counter `size`.  Gives the flash and the `HAL_FLASH_Program` calls `(address, word)`
made, in order. -/
def programLoop : Nat → Nat → List Byte → Flash → List (Nat × Nat) → Flash × List (Nat × Nat)
  | 0, _, _, fl, tr => (fl, tr)
  | size + 1, targetaddr, data32, fl, tr =>
    programLoop size ((targetaddr + 4) % 2 ^ 32) (data32.drop 4)
      (HAL_FLASH_Program targetaddr (word32 data32) fl) (tr ++ [(targetaddr, word32 data32)])

/-- Lines 102-112: `programPage`, flash and word writes. -/
def programPageRun (pagenr : Nat) (data : List Byte) (size : Nat) (fl : Flash) :
    Flash × List (Nat × Nat) :=
  programLoop (size / 4) (pageAddr pagenr) data fl []

/-- Lines 102-112: `programPage`, its effect on the flash. -/
def programPage (pagenr : Nat) (data : List Byte) (size : Nat) (fl : Flash) : Flash :=
  (programPageRun pagenr data size fl).1

/-- Lines 102-112: `programPage`, the `HAL_FLASH_Program` calls `(address, word)` it
makes. -/
def programPageWrites (pagenr : Nat) (data : List Byte) (size : Nat) (fl : Flash) :
    List (Nat × Nat) :=
  (programPageRun pagenr data size fl).2

/-- Lines 63-79: one pass through the body of the `while` loop, up to and including the test
`len < PAGESIZE`.  The flag is `true` when the loop is left by `break`; otherwise `page`
has been incremented. -/
def loopBody (st : LoopState) : LoopState × Bool :=
  let buf0 := memset st.pagedat 0xFF PAGESIZE
  let (buf, len, rest) := f_read st.file buf0 PAGESIZE
  let calls1 := st.calls ++ [Call.f_read PAGESIZE]
  let st1 : LoopState :=
    if memcmp st.flash (pageAddr st.page) buf len ≠ 0 then
      let calls2 := if st.programmed = 0 then calls1 ++ [Call.HAL_FLASH_Unlock] else calls1
      let programmed := if st.programmed = 0 then 1 else st.programmed
      { page := st.page
        programmed := programmed
        file := rest
        pagedat := buf
        flash := programPage st.page buf 2048 (erasePage st.page st.flash)
        calls := calls2 ++ [Call.erasePage st.page, Call.programPage st.page buf 2048] }
    else
      { page := st.page
        programmed := st.programmed
        file := rest
        pagedat := buf
        flash := st.flash
        calls := calls1 }
  if len < PAGESIZE then (st1, true) else ({ st1 with page := (st1.page + 1) % 2 ^ 32 }, false)

/-- Lines 62-80: `while (page < LASTPAGE) { ... }`.  The first argument bounds the number
of passes; `none` means the bound was reached before the loop ended. -/
def whileLoop : Nat → LoopState → Option LoopState
  | 0, _ => none
  | fuel + 1, st =>
    if st.page < LASTPAGE then
      match loopBody st with
      | (st1, true) => some st1
      | (st1, false) => whileLoop fuel st1
    else some st

/-- Lines 42-87: `bootloader()`.  A `boot()` call ends the run: the three early exits
stop at their `boot()`.  The loop gets a bound of `LASTPAGE - FIRSTPAGE + 1` passes, one
more than `page` can make from `FIRSTPAGE` to `LASTPAGE`; the result is `none` only if the
loop did not end within the bound. -/
def bootloader (env : Env) (fl : Flash) : Option Run :=
  if env.cardDetect ≠ 0 then
    some ⟨[Call.gpio_ll_read, Call.led_sequence sequence_t.NO_SDCARD, Call.boot], fl⟩
  else if env.mountRes ≠ 0 then
    some ⟨[Call.gpio_ll_read, Call.f_mount, Call.led_sequence sequence_t.NO_SDCARD,
      Call.boot], fl⟩
  else if env.openRes ≠ 0 then
    some ⟨[Call.gpio_ll_read, Call.f_mount, Call.f_open,
      Call.led_sequence sequence_t.NO_SDCARD, Call.boot], fl⟩
  else
    match whileLoop (LASTPAGE - FIRSTPAGE + 1)
        { page := FIRSTPAGE
          programmed := 0
          file := env.image
          pagedat := List.replicate 2048 0
          flash := fl
          calls := [Call.gpio_ll_read, Call.f_mount, Call.f_open, Call.led_swich 1 1 1 1] } with
    | none => none
    | some st =>
      some ⟨st.calls ++
        [Call.led_sequence
          (if st.programmed ≠ 0 then sequence_t.PROGRAMMED else sequence_t.JUST_BOOTED),
         Call.boot], st.flash⟩

/-! ## Vocabulary of the specification -/

/-- The `n` bytes of the flash from address `addr` on. -/
def flashBytes (fl : Flash) (addr : Nat) : Nat → List Byte
  | 0 => []
  | n + 1 => fl addr :: flashBytes fl (addr + 1) n

/-- Chunk `i` of the image: its bytes `[PAGESIZE * i, min L (PAGESIZE * (i + 1)))`. -/
def chunk (image : List Byte) (i : Nat) : List Byte :=
  (image.drop (PAGESIZE * i)).take PAGESIZE

/-- A chunk filled up to a whole page with the idle pattern `0xFF`. -/
def padded (c : List Byte) : List Byte :=
  c ++ List.replicate (PAGESIZE - c.length) 0xFF

/-- Chunk `i` of the image differs, in at least one byte, from the flash bytes at the same
offsets of page `FIRSTPAGE + i`. -/
def pageDiffers (fl : Flash) (image : List Byte) (i : Nat) : Bool :=
  flashBytes fl (pageAddr (FIRSTPAGE + i)) (chunk image i).length != chunk image i

/-- Number of passes through the loop for an image: one per whole page of the image plus
one for the short rest, at most `LASTPAGE - FIRSTPAGE`. -/
def passes (image : List Byte) : Nat :=
  min (image.length / PAGESIZE + 1) (LASTPAGE - FIRSTPAGE)

/-- The calls of pass `i` of the loop, told from the image and the flash at the start of
the run. -/
def passCalls (fl : Flash) (image : List Byte) (i : Nat) : List Call :=
  Call.f_read PAGESIZE ::
    (if pageDiffers fl image i then
      (if (List.range i).any (pageDiffers fl image) then [] else [Call.HAL_FLASH_Unlock]) ++
        [Call.erasePage (FIRSTPAGE + i),
         Call.programPage (FIRSTPAGE + i) (padded (chunk image i)) 2048]
    else [])

/-- The flash after `n` passes of the loop, told from the image and the flash at the start
of the run: the pages whose chunk differed hold the padded chunk. -/
def flashAfter (fl : Flash) (image : List Byte) (n : Nat) : Flash :=
  fun a =>
    if pageAddr FIRSTPAGE ≤ a ∧ a < pageAddr FIRSTPAGE + PAGESIZE * n
        ∧ pageDiffers fl image ((a - pageAddr FIRSTPAGE) / PAGESIZE) = true then
      (padded (chunk image ((a - pageAddr FIRSTPAGE) / PAGESIZE))).getD
        ((a - pageAddr FIRSTPAGE) % PAGESIZE) 0
    else fl a

/-- The call is an `erasePage` or a `programPage`. -/
def isFlashOp : Call → Bool
  | Call.erasePage _ => true
  | Call.programPage _ _ _ => true
  | _ => false

/-- The `erasePage` and `programPage` calls of a trace, in order. -/
def flashOps (calls : List Call) : List Call := calls.filter isFlashOp

/-- The outcomes passed to `led_sequence` in a trace, in order. -/
def outcomes (calls : List Call) : List sequence_t :=
  calls.filterMap fun c =>
    match c with
    | Call.led_sequence s => some s
    | _ => none

/-- The calls before the loop when the card is there and mount and open succeed. -/
def prologue : List Call :=
  [Call.gpio_ll_read, Call.f_mount, Call.f_open, Call.led_swich 1 1 1 1]

/-- The state of the loop after `n` passes, told from the image and the flash at the start
of the run. -/
def AfterPasses (fl : Flash) (image : List Byte) (n : Nat) (st : LoopState) : Prop :=
  st.file = image.drop (PAGESIZE * n) ∧ st.pagedat.length = 2048 ∧
    st.flash = flashAfter fl image n ∧
    st.calls = prologue ++ (List.range n).flatMap (passCalls fl image) ∧
    st.programmed = if (List.range n).any (pageDiffers fl image) then 1 else 0

/-! ## Boot transfer and status signalling -/

/-- What `boot()` does to the processor, in order. -/
inductive CpuAction where
  | disable_irq
  | set_VTOR (addr : Nat)
  | startApplication (stackPointer startupAddress : Nat)
  deriving DecidableEq, Repr

/-- The 32-bit word that a `uint32_t*` read finds in the flash at `addr` (little endian). -/
def flashWord (fl : Flash) (addr : Nat) : Nat :=
  (fl addr).val + 256 * (fl (addr + 1)).val + 65536 * (fl (addr + 2)).val
    + 16777216 * (fl (addr + 3)).val

/-- Lines 115-120: `boot()`.  `app_start` is `FLASH_BASE + PAGESIZE * FIRSTPAGE`,
`app_start[1]` is the word four bytes further on; `startApplication` (lines 125-128) puts
its first argument into the main stack pointer and branches to the second. -/
def boot (fl : Flash) : List CpuAction :=
  [CpuAction.disable_irq,
   CpuAction.set_VTOR (pageAddr FIRSTPAGE),
   CpuAction.startApplication (flashWord fl (pageAddr FIRSTPAGE))
     (flashWord fl ((pageAddr FIRSTPAGE + 4) % 2 ^ 32))]

/-- The calls made by the body of `led_sequence`. -/
inductive LedCall where
  | HAL_Delay (ms : Nat)
  | led_swich (led0 led1 led2 led3 : Nat)
  deriving DecidableEq, Repr

/-- What `led_swich` does to the hardware. -/
inductive LedAction where
  | gpio_ll_write (led : Nat) (value : Nat)
  | HAL_Delay (ms : Nat)
  deriving DecidableEq, Repr

/-- Lines 162-168: `led_swich`; the indicators `LED0 .. LED3` are numbered `0 .. 3`. -/
def led_swich (led0 led1 led2 led3 : Nat) : List LedAction :=
  [LedAction.gpio_ll_write 0 led0, LedAction.gpio_ll_write 1 led1,
   LedAction.gpio_ll_write 2 led2, LedAction.gpio_ll_write 3 led3, LedAction.HAL_Delay 100]

/-- Lines 134-155: the `switch (sequence)` in the `for` loop of `led_sequence`. -/
def ledSwitch : sequence_t → List LedCall
  | sequence_t.NO_SDCARD =>
    [LedCall.led_swich 1 1 1 1, LedCall.led_swich 0 0 0 0,
     LedCall.led_swich 1 1 1 1, LedCall.led_swich 0 0 0 0]
  | sequence_t.PROGRAMMED =>
    [LedCall.led_swich 1 0 0 0, LedCall.led_swich 0 1 0 0, LedCall.led_swich 0 0 1 0,
     LedCall.led_swich 0 0 0 1, LedCall.led_swich 0 0 1 0, LedCall.led_swich 0 1 0 0]
  | sequence_t.JUST_BOOTED =>
    [LedCall.led_swich 1 1 0 0, LedCall.led_swich 0 0 1 1,
     LedCall.led_swich 1 1 0 0, LedCall.led_swich 0 0 1 1]

/-- Lines 131-159: `led_sequence`; the `for` loop runs its body for `i = 0, 1, 2, 3`. -/
def led_sequence (sequence : sequence_t) : List LedCall :=
  [LedCall.HAL_Delay 300] ++ (List.range 4).flatMap (fun _ => ledSwitch sequence) ++
    [LedCall.led_swich 0 0 0 0, LedCall.HAL_Delay 300]

/-- The hardware actions of a list of calls of `led_sequence`. -/
def ledActions (calls : List LedCall) : List LedAction :=
  calls.flatMap fun c =>
    match c with
    | LedCall.HAL_Delay ms => [LedAction.HAL_Delay ms]
    | LedCall.led_swich a b c d => led_swich a b c d

/-- The indicator states `(led0, led1, led2, led3)` written by a list of calls, in
order. -/
def ledStates (calls : List LedCall) : List (Nat × Nat × Nat × Nat) :=
  calls.filterMap fun c =>
    match c with
    | LedCall.led_swich a b c d => some (a, b, c, d)
    | LedCall.HAL_Delay _ => none

/-- The call is a flash operation: `HAL_FLASH_Unlock`, `erasePage` or `programPage`. -/
def isFlashCall : Call → Bool
  | Call.HAL_FLASH_Unlock => true
  | Call.erasePage _ => true
  | Call.programPage _ _ _ => true
  | _ => false

/-- The flash operations of a trace, in order. -/
def flashCalls (calls : List Call) : List Call := calls.filter isFlashCall

/-! ## The primitives -/

theorem flashBytes_length (fl : Flash) (n : Nat) :
    ∀ addr, (flashBytes fl addr n).length = n := by
  induction n with
  | zero => intro addr; rfl
  | succ n ih => intro addr; simp [flashBytes, ih]

theorem flashBytes_getElem? (fl : Flash) (n : Nat) :
    ∀ addr i, i < n → (flashBytes fl addr n)[i]? = some (fl (addr + i)) := by
  induction n with
  | zero => intro addr i h; omega
  | succ n ih =>
    intro addr i h
    cases i with
    | zero => simp [flashBytes]
    | succ i =>
      simp only [flashBytes, List.getElem?_cons_succ]
      rw [ih (addr + 1) i (by omega)]
      congr 2; omega

theorem flashBytes_congr (fl fl2 : Flash) (n : Nat) :
    ∀ addr, (∀ a, addr ≤ a → a < addr + n → fl a = fl2 a) →
      flashBytes fl addr n = flashBytes fl2 addr n := by
  induction n with
  | zero => intro addr _; rfl
  | succ n ih =>
    intro addr h
    simp only [flashBytes]
    rw [h addr (le_refl _) (by omega), ih (addr + 1) (fun a h1 h2 => h a (by omega) (by omega))]

/-- The test `memcmp(...) != 0` of line 67 asks whether the flash bytes differ from the
bytes just read. -/
theorem memcmp_eq_zero_iff (fl : Flash) (c : List Byte) :
    ∀ (addr : Nat) (rest : List Byte),
      memcmp fl addr (c ++ rest) c.length = 0 ↔ flashBytes fl addr c.length = c := by
  induction c with
  | nil => intro addr rest; simp [memcmp, flashBytes]
  | cons b bs ih =>
    intro addr rest
    simp only [List.cons_append, List.length_cons, memcmp, flashBytes]
    by_cases h : fl addr = b
    · simp [h, ih]
    · simp only [h, if_false, List.cons.injEq, false_and, iff_false]
      intro h0
      apply h
      apply Fin.ext
      omega

theorem wordByte_word32 (data : List Byte) (k : Nat) (hk : k < 4) :
    wordByte (word32 data) k = data.getD k 0 := by
  apply Fin.ext
  simp only [wordByte, word32]
  have h0 := (data.getD 0 0).isLt
  have h1 := (data.getD 1 0).isLt
  have h2 := (data.getD 2 0).isLt
  have h3 := (data.getD 3 0).isLt
  interval_cases k <;> simp <;> omega

theorem getD_drop (data : List Byte) (m k : Nat) :
    (data.drop m).getD k 0 = data.getD (m + k) 0 := by
  simp [List.getD_eq_getElem?_getD, List.getElem?_drop]

theorem programLoop_flash (n : Nat) :
    ∀ (addr : Nat) (data : List Byte) (fl : Flash) (tr : List (Nat × Nat)),
      addr + 4 * n ≤ 2 ^ 32 → ∀ a,
        (programLoop n addr data fl tr).1 a =
          if addr ≤ a ∧ a < addr + 4 * n then data.getD (a - addr) 0 else fl a := by
  induction n with
  | zero =>
    intro addr data fl tr _ a
    have h0 : ¬ (addr ≤ a ∧ a < addr + 4 * 0) := by omega
    rw [if_neg h0]
    rfl
  | succ n ih =>
    intro addr data fl tr h a
    simp only [programLoop]
    rcases Nat.eq_zero_or_pos n with hn | hn
    · subst hn
      simp only [programLoop, HAL_FLASH_Program]
      by_cases hin : addr ≤ a ∧ a < addr + 4
      · have hin2 : addr ≤ a ∧ a < addr + 4 * (0 + 1) := by omega
        rw [if_pos hin, if_pos hin2]
        exact wordByte_word32 data (a - addr) (by omega)
      · have hin2 : ¬ (addr ≤ a ∧ a < addr + 4 * (0 + 1)) := by omega
        rw [if_neg hin, if_neg hin2]
    · have hmod : (addr + 4) % 2 ^ 32 = addr + 4 := Nat.mod_eq_of_lt (by omega)
      rw [hmod, ih (addr + 4) _ _ _ (by omega) a]
      by_cases h1 : addr + 4 ≤ a ∧ a < addr + 4 + 4 * n
      · have h2 : addr ≤ a ∧ a < addr + 4 * (n + 1) := by omega
        rw [if_pos h1, if_pos h2, getD_drop]
        congr 1; omega
      · rw [if_neg h1]
        simp only [HAL_FLASH_Program]
        by_cases hin : addr ≤ a ∧ a < addr + 4
        · have h2 : addr ≤ a ∧ a < addr + 4 * (n + 1) := by omega
          rw [if_pos hin, if_pos h2]
          exact wordByte_word32 data (a - addr) (by omega)
        · have h2 : ¬ (addr ≤ a ∧ a < addr + 4 * (n + 1)) := by omega
          rw [if_neg hin, if_neg h2]

theorem programLoop_writes (n : Nat) :
    ∀ (addr : Nat) (data : List Byte) (fl : Flash) (tr : List (Nat × Nat)),
      addr < 2 ^ 32 →
        (programLoop n addr data fl tr).2 =
          tr ++ (List.range n).map
            (fun k => ((addr + 4 * k) % 2 ^ 32, word32 (data.drop (4 * k)))) := by
  induction n with
  | zero => intro addr data fl tr _; simp [programLoop]
  | succ n ih =>
    intro addr data fl tr h
    simp only [programLoop]
    rw [ih _ _ _ _ (Nat.mod_lt _ (by norm_num)), List.range_succ_eq_map]
    simp only [List.map_cons, List.map_map, List.append_assoc, List.singleton_append,
      Nat.mul_zero, Nat.add_zero, List.drop_zero, Nat.mod_eq_of_lt h]
    congr 2
    apply List.map_congr_left
    intro k _
    simp only [Function.comp, List.drop_drop, Nat.succ_eq_add_one]
    congr 1
    · omega
    · congr 2; omega

/-! ## Pages -/

theorem pageAddr_eq (p : Nat) (hp : p ≤ LASTPAGE) :
    pageAddr p = FLASH_BASE + PAGESIZE * p := by
  simp only [pageAddr, FLASH_BASE, PAGESIZE, LASTPAGE] at *
  omega

theorem programPage_erasePage (p : Nat) (hp : p < LASTPAGE) (buf : List Byte) (fl : Flash)
    (a : Nat) :
    programPage p buf 2048 (erasePage p fl) a =
      if pageAddr p ≤ a ∧ a < pageAddr p + PAGESIZE then buf.getD (a - pageAddr p) 0
      else fl a := by
  have hpa := pageAddr_eq p (le_of_lt hp)
  simp only [programPage, programPageRun]
  rw [programLoop_flash _ _ _ _ _ (by
    rw [hpa]; simp only [FLASH_BASE, PAGESIZE, LASTPAGE] at *; omega)]
  simp only [PAGESIZE, erasePage, HAL_FLASHEx_Erase]
  by_cases h : pageAddr p ≤ a ∧ a < pageAddr p + 2048
  · have h2 : pageAddr p ≤ a ∧ a < pageAddr p + 4 * (2048 / 4) := by omega
    rw [if_pos h, if_pos h2]
  · have h2 : ¬ (pageAddr p ≤ a ∧ a < pageAddr p + 4 * (2048 / 4)) := by omega
    rw [if_neg h, if_neg h2, if_neg h]

theorem chunk_length_le (image : List Byte) (i : Nat) : (chunk image i).length ≤ PAGESIZE := by
  simp only [chunk, List.length_take]
  omega

theorem chunk_length (image : List Byte) (i : Nat) :
    (chunk image i).length = min PAGESIZE (image.length - PAGESIZE * i) := by
  simp [chunk, List.length_take, List.length_drop]

theorem padded_length (c : List Byte) (h : c.length ≤ PAGESIZE) :
    (padded c).length = PAGESIZE := by
  simp only [padded, List.length_append, List.length_replicate]
  omega

/-! ## The loop -/

/-- One pass through the loop body, in closed form. -/
theorem loopBody_eq (st : LoopState) (hbuf : st.pagedat.length = 2048) :
    loopBody st =
      ({ page := if (st.file.take PAGESIZE).length < PAGESIZE then st.page
                 else (st.page + 1) % 2 ^ 32
         programmed :=
           if flashBytes st.flash (pageAddr st.page) (st.file.take PAGESIZE).length
               = st.file.take PAGESIZE then st.programmed
           else if st.programmed = 0 then 1 else st.programmed
         file := st.file.drop PAGESIZE
         pagedat := padded (st.file.take PAGESIZE)
         flash :=
           if flashBytes st.flash (pageAddr st.page) (st.file.take PAGESIZE).length
               = st.file.take PAGESIZE then st.flash
           else programPage st.page (padded (st.file.take PAGESIZE)) 2048
                  (erasePage st.page st.flash)
         calls :=
           st.calls ++ Call.f_read PAGESIZE ::
             (if flashBytes st.flash (pageAddr st.page) (st.file.take PAGESIZE).length
                 = st.file.take PAGESIZE then []
              else (if st.programmed = 0 then [Call.HAL_FLASH_Unlock] else []) ++
                [Call.erasePage st.page,
                 Call.programPage st.page (padded (st.file.take PAGESIZE)) 2048]) },
       decide ((st.file.take PAGESIZE).length < PAGESIZE)) := by
  have hlen : (st.file.take PAGESIZE).length ≤ PAGESIZE := by
    simp only [List.length_take]; omega
  have hbufeq : st.file.take PAGESIZE ++
      (memset st.pagedat 0xFF PAGESIZE).drop (st.file.take PAGESIZE).length
        = padded (st.file.take PAGESIZE) := by
    have h1 : (st.file.take PAGESIZE).length ≤ (List.replicate PAGESIZE (0xFF : Byte)).length := by
      rw [List.length_replicate]; exact hlen
    have h2 : st.pagedat.drop PAGESIZE = [] :=
      List.drop_eq_nil_of_le (by rw [hbuf]; simp [PAGESIZE])
    simp only [memset, padded]
    rw [List.drop_append_of_le_length h1, h2, List.drop_replicate, List.append_nil]
  simp only [loopBody, f_read, hbufeq]
  have hm := memcmp_eq_zero_iff st.flash (st.file.take PAGESIZE) (pageAddr st.page)
    (List.replicate (PAGESIZE - (st.file.take PAGESIZE).length) 0xFF)
  rw [← padded] at hm
  by_cases hd : flashBytes st.flash (pageAddr st.page) (st.file.take PAGESIZE).length
      = st.file.take PAGESIZE
  · have h0 := hm.2 hd
    simp only [h0, hd, ne_eq, not_true_eq_false, if_false, if_true]
    by_cases hl : (st.file.take PAGESIZE).length < PAGESIZE
    · simp only [if_pos hl, decide_eq_true hl]
    · simp only [if_neg hl, decide_eq_false hl]
  · have h0 : ¬ memcmp st.flash (pageAddr st.page) (padded (st.file.take PAGESIZE))
        (st.file.take PAGESIZE).length = 0 := fun h => hd (hm.1 h)
    rw [if_pos h0, if_neg hd, if_neg hd, if_neg hd]
    by_cases hl : (st.file.take PAGESIZE).length < PAGESIZE <;>
      by_cases hp : st.programmed = 0
    · rw [if_pos hl, if_pos hl, decide_eq_true hl, if_pos hp, if_pos hp, if_pos hp]
      simp only [List.append_assoc, List.singleton_append, List.cons_append, List.nil_append]
    · rw [if_pos hl, if_pos hl, decide_eq_true hl, if_neg hp, if_neg hp, if_neg hp]
      simp only [List.append_assoc, List.singleton_append, List.cons_append, List.nil_append]
    · rw [if_neg hl, if_neg hl, decide_eq_false hl, if_pos hp, if_pos hp, if_pos hp]
      simp only [List.append_assoc, List.singleton_append, List.cons_append, List.nil_append]
    · rw [if_neg hl, if_neg hl, decide_eq_false hl, if_neg hp, if_neg hp, if_neg hp]
      simp only [List.append_assoc, List.singleton_append, List.cons_append, List.nil_append]

theorem padded_getD_of_lt (c : List Byte) (j : Nat) (h : j < c.length) :
    (padded c).getD j 0 = c.getD j 0 := by
  simp only [padded, List.getD_eq_getElem?_getD, List.getElem?_append_left h]

theorem flashAfter_of_ge (fl : Flash) (image : List Byte) (n a : Nat)
    (h : pageAddr FIRSTPAGE + PAGESIZE * n ≤ a) : flashAfter fl image n a = fl a := by
  simp only [flashAfter]
  rw [if_neg (by omega)]

theorem flashAfter_of_lt (fl : Flash) (image : List Byte) (n a : Nat)
    (h : a < pageAddr FIRSTPAGE) : flashAfter fl image n a = fl a := by
  simp only [flashAfter]
  rw [if_neg (by omega)]

theorem pageAddr_first_add (k : Nat) (hk : k ≤ LASTPAGE - FIRSTPAGE) :
    pageAddr (FIRSTPAGE + k) = pageAddr FIRSTPAGE + PAGESIZE * k := by
  rw [pageAddr_eq _ (by simp only [LASTPAGE, FIRSTPAGE] at *; omega),
    pageAddr_eq _ (by simp only [LASTPAGE, FIRSTPAGE]; omega)]
  simp only [PAGESIZE, FIRSTPAGE]
  omega

theorem flashAfter_succ (fl : Flash) (image : List Byte) (k : Nat)
    (hk : k < LASTPAGE - FIRSTPAGE) :
    flashAfter fl image (k + 1) =
      if pageDiffers fl image k = true then
        programPage (FIRSTPAGE + k) (padded (chunk image k)) 2048
          (erasePage (FIRSTPAGE + k) (flashAfter fl image k))
      else flashAfter fl image k := by
  have hpa := pageAddr_first_add k (le_of_lt hk)
  funext a
  by_cases hd : pageDiffers fl image k = true
  · rw [if_pos hd, programPage_erasePage _ (by simp only [LASTPAGE, FIRSTPAGE] at *; omega)]
    rw [hpa]
    simp only [flashAfter, PAGESIZE] at *
    by_cases hin : pageAddr FIRSTPAGE + 2048 * k ≤ a ∧ a < pageAddr FIRSTPAGE + 2048 * k + 2048
    · have hq : (a - pageAddr FIRSTPAGE) / 2048 = k := by omega
      have hr : (a - pageAddr FIRSTPAGE) % 2048 = a - (pageAddr FIRSTPAGE + 2048 * k) := by omega
      rw [if_pos hin, hq, hr, if_pos ⟨by omega, by omega, hd⟩]
    · rw [if_neg hin]
      by_cases hq : (a - pageAddr FIRSTPAGE) / 2048 = k
      · rw [hq, if_neg (by omega), if_neg (by omega)]
      · by_cases h1 : pageAddr FIRSTPAGE ≤ a ∧ a < pageAddr FIRSTPAGE + 2048 * (k + 1)
            ∧ pageDiffers fl image ((a - pageAddr FIRSTPAGE) / 2048) = true
        · rw [if_pos h1, if_pos ⟨h1.1, by omega, h1.2.2⟩]
        · rw [if_neg h1, if_neg (fun h2 => h1 ⟨h2.1, by omega, h2.2.2⟩)]
  · rw [if_neg hd]
    simp only [flashAfter, PAGESIZE] at *
    by_cases h1 : pageAddr FIRSTPAGE ≤ a ∧ a < pageAddr FIRSTPAGE + 2048 * (k + 1)
        ∧ pageDiffers fl image ((a - pageAddr FIRSTPAGE) / 2048) = true
    · have hq : (a - pageAddr FIRSTPAGE) / 2048 ≠ k := fun h => hd (h ▸ h1.2.2)
      rw [if_pos h1, if_pos ⟨h1.1, by omega, h1.2.2⟩]
    · rw [if_neg h1, if_neg (fun h2 => h1 ⟨h2.1, by omega, h2.2.2⟩)]

theorem flashBytes_flashAfter (fl : Flash) (image : List Byte) (k n : Nat)
    (hk : k ≤ LASTPAGE - FIRSTPAGE) :
    flashBytes (flashAfter fl image k) (pageAddr (FIRSTPAGE + k)) n =
      flashBytes fl (pageAddr (FIRSTPAGE + k)) n := by
  apply flashBytes_congr
  intro a h1 _
  rw [pageAddr_first_add k hk] at h1
  exact flashAfter_of_ge fl image k a h1

theorem any_range_succ (p : Nat → Bool) (k : Nat) :
    (List.range (k + 1)).any p = ((List.range k).any p || p k) := by
  rw [List.range_succ, List.any_append]
  simp

theorem loopBody_step (fl : Flash) (image : List Byte) (k : Nat) (st : LoopState)
    (h : AfterPasses fl image k st) (hp : st.page = FIRSTPAGE + k)
    (hk : k < LASTPAGE - FIRSTPAGE) :
    AfterPasses fl image (k + 1) (loopBody st).1 ∧
      (loopBody st).2 = decide ((chunk image k).length < PAGESIZE) ∧
      (loopBody st).1.page =
        if (chunk image k).length < PAGESIZE then FIRSTPAGE + k else FIRSTPAGE + (k + 1) := by
  obtain ⟨hfile, hbuf, hflash, hcalls, hprog⟩ := h
  have htake : st.file.take PAGESIZE = chunk image k := by rw [hfile]; rfl
  have hdiff : flashBytes st.flash (pageAddr st.page) (chunk image k).length = chunk image k ↔
      ¬ pageDiffers fl image k = true := by
    rw [hflash, hp, flashBytes_flashAfter fl image k _ (le_of_lt hk)]
    simp [pageDiffers]
  rw [loopBody_eq st hbuf, htake]
  refine ⟨⟨?_, ?_, ?_, ?_, ?_⟩, rfl, ?_⟩
  · show st.file.drop PAGESIZE = _
    rw [hfile, List.drop_drop, Nat.mul_succ]
  · exact padded_length _ (chunk_length_le image k)
  · show (if _ then _ else _) = _
    rw [flashAfter_succ fl image k hk, hp, hflash]
    by_cases hd : pageDiffers fl image k = true
    · rw [if_pos hd, if_neg (fun hc => (hdiff.1 (by rw [hp, hflash] at *; exact hc)) hd)]
    · rw [if_neg hd, if_pos (by rw [← hflash, ← hp]; exact hdiff.2 hd)]
  · show st.calls ++ _ = _
    rw [hcalls, List.range_succ, List.flatMap_append, List.append_assoc]
    congr 1
    simp only [List.flatMap_cons, List.flatMap_nil, List.append_nil, passCalls]
    congr 1
    by_cases hd : pageDiffers fl image k = true
    · rw [if_pos hd, if_neg (fun hc => (hdiff.1 hc) hd), hp, hprog]
      by_cases ha : (List.range k).any (pageDiffers fl image) = true
      · rw [if_pos ha, if_pos ha, if_neg (by decide)]
      · rw [if_neg ha, if_neg ha, if_pos rfl]
    · rw [if_neg hd, if_pos (hdiff.2 hd)]
  · show (if _ then _ else _) = _
    rw [any_range_succ, hprog]
    by_cases hd : pageDiffers fl image k = true
    · rw [if_neg (fun hc => (hdiff.1 hc) hd), hd]
      by_cases ha : (List.range k).any (pageDiffers fl image) = true
      · simp [ha]
      · simp [ha]
    · rw [if_pos (hdiff.2 hd)]
      simp [hd]
  · show (if _ then _ else _) = _
    by_cases hl : (chunk image k).length < PAGESIZE
    · rw [if_pos hl, if_pos hl, hp]
    · rw [if_neg hl, if_neg hl, hp]
      simp only [LASTPAGE, FIRSTPAGE] at *
      omega

theorem passes_eq_of_short (image : List Byte) (k : Nat) (hk : k < LASTPAGE - FIRSTPAGE)
    (hfull : PAGESIZE * k ≤ image.length) (hshort : (chunk image k).length < PAGESIZE) :
    passes image = k + 1 := by
  rw [chunk_length] at hshort
  simp only [passes, PAGESIZE, LASTPAGE, FIRSTPAGE] at *
  omega

theorem passes_eq_of_full (image : List Byte)
    (hfull : PAGESIZE * (LASTPAGE - FIRSTPAGE) ≤ image.length) :
    passes image = LASTPAGE - FIRSTPAGE := by
  simp only [passes, PAGESIZE, LASTPAGE, FIRSTPAGE] at *
  omega

/-- The loop ends, and ends in the state told by `AfterPasses` for `passes image`
passes. -/
theorem whileLoop_spec (fl : Flash) (image : List Byte) :
    ∀ (fuel k : Nat) (st : LoopState), AfterPasses fl image k st →
      st.page = FIRSTPAGE + k → k ≤ LASTPAGE - FIRSTPAGE → PAGESIZE * k ≤ image.length →
      LASTPAGE - FIRSTPAGE - k < fuel →
      ∃ st', whileLoop fuel st = some st' ∧ AfterPasses fl image (passes image) st' ∧
        st'.page = FIRSTPAGE + min (image.length / PAGESIZE) (LASTPAGE - FIRSTPAGE) := by
  intro fuel
  induction fuel with
  | zero => intro k st _ _ _ _ hf; omega
  | succ fuel ih =>
    intro k st hst hp hk hfull hf
    simp only [whileLoop]
    by_cases hlt : st.page < LASTPAGE
    · rw [if_pos hlt]
      have hk2 : k < LASTPAGE - FIRSTPAGE := by
        simp only [LASTPAGE, FIRSTPAGE] at *; omega
      obtain ⟨h1, h2, h3⟩ := loopBody_step fl image k st hst hp hk2
      by_cases hl : (chunk image k).length < PAGESIZE
      · rw [decide_eq_true hl] at h2
        rw [if_pos hl] at h3
        have hbody : loopBody st = ((loopBody st).1, true) := by rw [← h2]
        rw [hbody]
        refine ⟨_, rfl, ?_, ?_⟩
        · rw [passes_eq_of_short image k hk2 hfull hl]; exact h1
        · rw [h3]
          rw [chunk_length] at hl
          simp only [PAGESIZE, LASTPAGE, FIRSTPAGE] at *
          omega
      · rw [decide_eq_false hl] at h2
        rw [if_neg hl] at h3
        have hbody : loopBody st = ((loopBody st).1, false) := by rw [← h2]
        rw [hbody]
        apply ih (k + 1) _ h1 h3 hk2
        · rw [chunk_length] at hl
          simp only [PAGESIZE] at *
          omega
        · omega
    · rw [if_neg hlt]
      have hk2 : k = LASTPAGE - FIRSTPAGE := by
        simp only [LASTPAGE, FIRSTPAGE] at *; omega
      refine ⟨st, rfl, ?_, ?_⟩
      · rw [passes_eq_of_full image (by rw [← hk2]; exact hfull), ← hk2]; exact hst
      · rw [hp]
        simp only [PAGESIZE, LASTPAGE, FIRSTPAGE] at *
        omega

theorem flashAfter_zero (fl : Flash) (image : List Byte) : flashAfter fl image 0 = fl := by
  funext a
  simp only [flashAfter]
  rw [if_neg (by omega)]

/-- The calls of a run in which the card is there and mount and open succeed. -/
theorem bootloader_update (env : Env) (fl : Flash) (hc : env.cardDetect = 0)
    (hm : env.mountRes = 0) (ho : env.openRes = 0) :
    bootloader env fl = some
      ⟨prologue ++ (List.range (passes env.image)).flatMap (passCalls fl env.image) ++
        [Call.led_sequence
          (if (List.range (passes env.image)).any (pageDiffers fl env.image) = true
            then sequence_t.PROGRAMMED else sequence_t.JUST_BOOTED),
         Call.boot],
       flashAfter fl env.image (passes env.image)⟩ := by
  have hinit : AfterPasses fl env.image 0
      { page := FIRSTPAGE, programmed := 0, file := env.image,
        pagedat := List.replicate 2048 0, flash := fl,
        calls := [Call.gpio_ll_read, Call.f_mount, Call.f_open, Call.led_swich 1 1 1 1] } := by
    refine ⟨rfl, List.length_replicate _ _, ?_, rfl, rfl⟩
    exact (flashAfter_zero fl env.image).symm
  obtain ⟨st', hrun, ⟨_, _, hflash, hcalls, hprog⟩, _⟩ :=
    whileLoop_spec fl env.image (LASTPAGE - FIRSTPAGE + 1) 0 _ hinit rfl (Nat.zero_le _)
      (Nat.zero_le _) (by omega)
  simp only [bootloader, hc, hm, ho, ne_eq, not_true_eq_false, if_false, hrun]
  rw [hcalls, hflash, hprog]
  by_cases ha : (List.range (passes env.image)).any (pageDiffers fl env.image) = true
  · simp [ha]
  · simp [ha]

/-! ## The trace of a run -/

theorem any_range_iff (p : Nat → Bool) (n : Nat) :
    (List.range n).any p = true ↔ ∃ i, i < n ∧ p i = true := by
  simp [List.any_eq_true]

theorem erasePage_mem_update (fl : Flash) (image : List Byte) (n p : Nat) (s : sequence_t) :
    Call.erasePage p ∈ prologue ++ (List.range n).flatMap (passCalls fl image) ++
        [Call.led_sequence s, Call.boot] ↔
      ∃ i, i < n ∧ pageDiffers fl image i = true ∧ p = FIRSTPAGE + i := by
  simp only [prologue, passCalls, List.mem_append, List.mem_flatMap, List.mem_range,
    List.mem_cons, List.mem_singleton, List.not_mem_nil, or_false, false_or, reduceCtorEq]
  constructor
  · rintro ⟨i, hi, h⟩
    by_cases hd : pageDiffers fl image i = true
    · rw [if_pos hd] at h
      refine ⟨i, hi, hd, ?_⟩
      by_cases ha : (List.range i).any (pageDiffers fl image) = true
      · rw [if_pos ha] at h; simpa using h
      · rw [if_neg ha] at h; simpa using h
    · rw [if_neg hd] at h; exact absurd h (List.not_mem_nil _)
  · rintro ⟨i, hi, hd, rfl⟩
    refine ⟨i, hi, ?_⟩
    rw [if_pos hd]
    simp

theorem programPage_mem_update (fl : Flash) (image : List Byte) (n p : Nat) (d : List Byte)
    (sz : Nat) (s : sequence_t) :
    Call.programPage p d sz ∈ prologue ++ (List.range n).flatMap (passCalls fl image) ++
        [Call.led_sequence s, Call.boot] ↔
      ∃ i, i < n ∧ pageDiffers fl image i = true ∧ p = FIRSTPAGE + i ∧
        d = padded (chunk image i) ∧ sz = 2048 := by
  simp only [prologue, passCalls, List.mem_append, List.mem_flatMap, List.mem_range,
    List.mem_cons, List.mem_singleton, List.not_mem_nil, or_false, false_or, reduceCtorEq]
  constructor
  · rintro ⟨i, hi, h⟩
    by_cases hd : pageDiffers fl image i = true
    · rw [if_pos hd] at h
      refine ⟨i, hi, hd, ?_⟩
      by_cases ha : (List.range i).any (pageDiffers fl image) = true
      · rw [if_pos ha] at h; simpa using h
      · rw [if_neg ha] at h; simpa using h
    · rw [if_neg hd] at h; exact absurd h (List.not_mem_nil _)
  · rintro ⟨i, hi, hd, rfl, rfl, rfl⟩
    refine ⟨i, hi, ?_⟩
    rw [if_pos hd]
    simp

theorem unlock_mem_update (fl : Flash) (image : List Byte) (n : Nat) (s : sequence_t) :
    Call.HAL_FLASH_Unlock ∈ prologue ++ (List.range n).flatMap (passCalls fl image) ++
        [Call.led_sequence s, Call.boot] ↔
      ∃ i, i < n ∧ pageDiffers fl image i = true := by
  simp only [prologue, passCalls, List.mem_append, List.mem_flatMap, List.mem_range,
    List.mem_cons, List.mem_singleton, List.not_mem_nil, or_false, false_or, reduceCtorEq]
  constructor
  · rintro ⟨i, hi, h⟩
    by_cases hd : pageDiffers fl image i = true
    · exact ⟨i, hi, hd⟩
    · rw [if_neg hd] at h; exact absurd h (List.not_mem_nil _)
  · rintro ⟨i, hi, hd⟩
    induction i using Nat.strong_induction_on with
    | _ i ih =>
      by_cases ha : (List.range i).any (pageDiffers fl image) = true
      · obtain ⟨j, hj, hdj⟩ := (any_range_iff _ _).1 ha
        exact ih j hj (by omega) hdj
      · refine ⟨i, hi, ?_⟩
        rw [if_pos hd, if_neg ha]
        simp

theorem f_read_mem_update (fl : Flash) (image : List Byte) (n btr : Nat) (s : sequence_t) :
    Call.f_read btr ∈ prologue ++ (List.range n).flatMap (passCalls fl image) ++
        [Call.led_sequence s, Call.boot] → btr = PAGESIZE := by
  simp only [prologue, passCalls, List.mem_append, List.mem_flatMap, List.mem_range,
    List.mem_cons, List.mem_singleton, List.not_mem_nil, or_false, false_or, reduceCtorEq]
  rintro ⟨i, hi, h⟩
  rcases h with h | h
  · exact Call.f_read.inj h
  · by_cases hd : pageDiffers fl image i = true
    · rw [if_pos hd] at h
      by_cases ha : (List.range i).any (pageDiffers fl image) = true
      · rw [if_pos ha] at h; simp at h
      · rw [if_neg ha] at h; simp at h
    · rw [if_neg hd] at h; exact absurd h (List.not_mem_nil _)

theorem flashOps_passCalls (fl : Flash) (image : List Byte) (i : Nat) :
    flashOps (passCalls fl image i) =
      if pageDiffers fl image i = true then
        [Call.erasePage (FIRSTPAGE + i),
         Call.programPage (FIRSTPAGE + i) (padded (chunk image i)) 2048]
      else [] := by
  by_cases hd : pageDiffers fl image i = true
  · by_cases ha : (List.range i).any (pageDiffers fl image) = true
    · simp [flashOps, passCalls, hd, ha, isFlashOp, List.filter]
    · simp [flashOps, passCalls, hd, ha, isFlashOp, List.filter]
  · simp [flashOps, passCalls, hd, isFlashOp, List.filter]

theorem flashOps_flatMap (fl : Flash) (image : List Byte) (n : Nat) :
    flashOps ((List.range n).flatMap (passCalls fl image)) =
      ((List.range n).filter (pageDiffers fl image)).flatMap fun i =>
        [Call.erasePage (FIRSTPAGE + i),
         Call.programPage (FIRSTPAGE + i) (padded (chunk image i)) 2048] := by
  induction n with
  | zero => rfl
  | succ n ih =>
    rw [List.range_succ, List.flatMap_append, List.filter_append, List.flatMap_append, ← ih]
    simp only [flashOps, List.filter_append]
    congr 1
    have h := flashOps_passCalls fl image n
    simp only [flashOps] at h
    simp only [List.flatMap_cons, List.flatMap_nil, List.append_nil, h]
    by_cases hd : pageDiffers fl image n = true
    · simp [hd, List.filter]
    · simp [hd, List.filter]

theorem flashOps_update (fl : Flash) (image : List Byte) (n : Nat) (s : sequence_t) :
    flashOps (prologue ++ (List.range n).flatMap (passCalls fl image) ++
        [Call.led_sequence s, Call.boot]) =
      ((List.range n).filter (pageDiffers fl image)).flatMap fun i =>
        [Call.erasePage (FIRSTPAGE + i),
         Call.programPage (FIRSTPAGE + i) (padded (chunk image i)) 2048] := by
  rw [← flashOps_flatMap]
  simp [flashOps, List.filter_append, prologue, isFlashOp, List.filter]

theorem outcomes_update (fl : Flash) (image : List Byte) (n : Nat) (s : sequence_t) :
    outcomes (prologue ++ (List.range n).flatMap (passCalls fl image) ++
        [Call.led_sequence s, Call.boot]) = [s] := by
  have h : outcomes ((List.range n).flatMap (passCalls fl image)) = [] := by
    induction n with
    | zero => rfl
    | succ n ih =>
      rw [List.range_succ, List.flatMap_append]
      simp only [outcomes, List.filterMap_append] at ih ⊢
      rw [ih]
      by_cases hd : pageDiffers fl image n = true
      · by_cases ha : (List.range n).any (pageDiffers fl image) = true
        · simp [passCalls, hd, ha, List.filterMap]
        · simp [passCalls, hd, ha, List.filterMap]
      · simp [passCalls, hd, List.filterMap]
  simp only [outcomes, List.filterMap_append] at h ⊢
  rw [h]
  simp [prologue, List.filterMap]

theorem programPageWrites_eq (p : Nat) (d : List Byte) (sz : Nat) (fl : Flash) :
    programPageWrites p d sz fl =
      (List.range (sz / 4)).map
        (fun k => ((pageAddr p + 4 * k) % 2 ^ 32, word32 (d.drop (4 * k)))) := by
  have h : pageAddr p < 2 ^ 32 := by
    unfold pageAddr
    exact Nat.mod_lt _ (by norm_num)
  simp only [programPageWrites, programPageRun]
  rw [programLoop_writes _ _ _ _ _ h, List.nil_append]

theorem bootloader_no_card (env : Env) (fl : Flash) (hc : env.cardDetect ≠ 0) :
    bootloader env fl = some
      ⟨[Call.gpio_ll_read, Call.led_sequence sequence_t.NO_SDCARD, Call.boot], fl⟩ := by
  simp only [bootloader, hc, ne_eq, not_false_eq_true, if_true]

theorem bootloader_mount_failed (env : Env) (fl : Flash) (hc : env.cardDetect = 0)
    (hm : env.mountRes ≠ 0) :
    bootloader env fl = some
      ⟨[Call.gpio_ll_read, Call.f_mount, Call.led_sequence sequence_t.NO_SDCARD, Call.boot],
        fl⟩ := by
  simp only [bootloader, hc, hm, ne_eq, not_true_eq_false, not_false_eq_true, if_true,
    if_false]

theorem bootloader_open_failed (env : Env) (fl : Flash) (hc : env.cardDetect = 0)
    (hm : env.mountRes = 0) (ho : env.openRes ≠ 0) :
    bootloader env fl = some
      ⟨[Call.gpio_ll_read, Call.f_mount, Call.f_open, Call.led_sequence sequence_t.NO_SDCARD,
        Call.boot], fl⟩ := by
  simp only [bootloader, hc, hm, ho, ne_eq, not_true_eq_false, not_false_eq_true, if_true,
    if_false]

/-- The runs that stop before the loop: their calls are one of three fixed lists and the
flash is untouched. -/
theorem bootloader_fallback (env : Env) (fl : Flash)
    (h : env.cardDetect ≠ 0 ∨ env.mountRes ≠ 0 ∨ env.openRes ≠ 0) :
    ∃ calls, bootloader env fl = some ⟨calls, fl⟩ ∧
      (calls = [Call.gpio_ll_read, Call.led_sequence sequence_t.NO_SDCARD, Call.boot] ∨
       calls = [Call.gpio_ll_read, Call.f_mount, Call.led_sequence sequence_t.NO_SDCARD,
          Call.boot] ∨
       calls = [Call.gpio_ll_read, Call.f_mount, Call.f_open,
          Call.led_sequence sequence_t.NO_SDCARD, Call.boot]) := by
  by_cases hc : env.cardDetect = 0
  · by_cases hm : env.mountRes = 0
    · have ho : env.openRes ≠ 0 := by
        rcases h with h | h | h
        · exact absurd hc h
        · exact absurd hm h
        · exact h
      exact ⟨_, bootloader_open_failed env fl hc hm ho, Or.inr (Or.inr rfl)⟩
    · exact ⟨_, bootloader_mount_failed env fl hc hm, Or.inr (Or.inl rfl)⟩
  · exact ⟨_, bootloader_no_card env fl hc, Or.inl rfl⟩

/-! ## The flash after a run -/

theorem chunk_getElem? (image : List Byte) (i j : Nat) (hj : j < PAGESIZE) :
    (chunk image i)[j]? = image[PAGESIZE * i + j]? := by
  simp only [chunk, List.getElem?_take, if_pos hj, List.getElem?_drop]

theorem getD_of_lt_length (l : List Byte) (j : Nat) (h : j < l.length) :
    l[j]? = some (l.getD j 0) := by
  rw [List.getD_eq_getElem?_getD, List.getElem?_eq_getElem h]
  rfl

/-- After `n` passes the first `n` pages of the application region hold the chunks of the
image, byte for byte. -/
theorem flashAfter_chunk (fl : Flash) (image : List Byte) (n i j : Nat)
    (hn : n ≤ LASTPAGE - FIRSTPAGE) (hi : i < n) (hj : j < (chunk image i).length) :
    (chunk image i)[j]? =
      some (flashAfter fl image n (pageAddr FIRSTPAGE + PAGESIZE * i + j)) := by
  have hj2 : j < PAGESIZE := lt_of_lt_of_le hj (chunk_length_le image i)
  have hq : (pageAddr FIRSTPAGE + PAGESIZE * i + j - pageAddr FIRSTPAGE) / PAGESIZE = i := by
    simp only [PAGESIZE] at *; omega
  have hr : (pageAddr FIRSTPAGE + PAGESIZE * i + j - pageAddr FIRSTPAGE) % PAGESIZE = j := by
    simp only [PAGESIZE] at *; omega
  by_cases hd : pageDiffers fl image i = true
  · have hin : pageAddr FIRSTPAGE ≤ pageAddr FIRSTPAGE + PAGESIZE * i + j ∧
        pageAddr FIRSTPAGE + PAGESIZE * i + j < pageAddr FIRSTPAGE + PAGESIZE * n ∧
        pageDiffers fl image
          ((pageAddr FIRSTPAGE + PAGESIZE * i + j - pageAddr FIRSTPAGE) / PAGESIZE) = true := by
      refine ⟨by omega, ?_, by rw [hq]; exact hd⟩
      simp only [PAGESIZE] at *; omega
    simp only [flashAfter]
    rw [if_pos hin, hq, hr, padded_getD_of_lt _ _ hj]
    exact getD_of_lt_length _ _ hj
  · have hout : ¬ (pageAddr FIRSTPAGE ≤ pageAddr FIRSTPAGE + PAGESIZE * i + j ∧
        pageAddr FIRSTPAGE + PAGESIZE * i + j < pageAddr FIRSTPAGE + PAGESIZE * n ∧
        pageDiffers fl image
          ((pageAddr FIRSTPAGE + PAGESIZE * i + j - pageAddr FIRSTPAGE) / PAGESIZE) = true) := by
      rw [hq]; exact fun h => hd h.2.2
    simp only [flashAfter]
    rw [if_neg hout]
    have heq : flashBytes fl (pageAddr (FIRSTPAGE + i)) (chunk image i).length = chunk image i := by
      simpa [pageDiffers] using hd
    conv_lhs => rw [← heq]
    rw [flashBytes_getElem? _ _ _ _ hj, pageAddr_first_add i (by omega)]

theorem pageDiffers_flashAfter (fl : Flash) (image : List Byte) (n i : Nat)
    (hn : n ≤ LASTPAGE - FIRSTPAGE) (hi : i < n) :
    pageDiffers (flashAfter fl image n) image i = false := by
  have heq : flashBytes (flashAfter fl image n) (pageAddr (FIRSTPAGE + i)) (chunk image i).length
      = chunk image i := by
    apply List.ext_getElem?
    intro j
    by_cases hj : j < (chunk image i).length
    · rw [flashBytes_getElem? _ _ _ _ hj, flashAfter_chunk fl image n i j hn hi hj,
        pageAddr_first_add i (by omega)]
    · rw [List.getElem?_eq_none (by rw [flashBytes_length]; omega),
        List.getElem?_eq_none (by omega)]
  simp [pageDiffers, heq]

theorem passes_le (image : List Byte) : passes image ≤ LASTPAGE - FIRSTPAGE := by
  simp only [passes]; omega

/-- `pageDiffers` byte by byte: page `i` does not differ exactly when every byte of chunk
`i` equals the flash byte at the same offset of page `FIRSTPAGE + i`. -/
theorem pageDiffers_eq_false_iff (fl : Flash) (image : List Byte) (i : Nat)
    (hi : i ≤ LASTPAGE - FIRSTPAGE) :
    pageDiffers fl image i = false ↔
      ∀ j, j < PAGESIZE → PAGESIZE * i + j < image.length →
        image[PAGESIZE * i + j]? = some (fl (FLASH_BASE + PAGESIZE * (FIRSTPAGE + i) + j)) := by
  have hpa := pageAddr_eq (FIRSTPAGE + i) (by simp only [LASTPAGE, FIRSTPAGE] at *; omega)
  have hlen := chunk_length image i
  simp only [pageDiffers, bne_eq_false_iff_eq]
  constructor
  · intro heq j hj hjL
    have hj2 : j < (chunk image i).length := by rw [hlen]; omega
    rw [← chunk_getElem? image i j hj, ← heq, flashBytes_getElem? _ _ _ _ hj2, hpa]
  · intro h
    apply List.ext_getElem?
    intro j
    by_cases hj : j < (chunk image i).length
    · have hj1 : j < PAGESIZE := by omega
      have hj2 : PAGESIZE * i + j < image.length := by omega
      rw [flashBytes_getElem? _ _ _ _ hj, chunk_getElem? image i j hj1, h j hj1 hj2, hpa]
    · rw [List.getElem?_eq_none (by rw [flashBytes_length]; omega),
        List.getElem?_eq_none (by omega)]

/-- Where no chunk differs the passes leave the flash as it is. -/
theorem flashAfter_eq_self (fl : Flash) (image : List Byte) (n : Nat)
    (h : ∀ i, i < n → pageDiffers fl image i = false) : flashAfter fl image n = fl := by
  funext a
  simp only [flashAfter]
  by_cases h1 : pageAddr FIRSTPAGE ≤ a ∧ a < pageAddr FIRSTPAGE + PAGESIZE * n
  · have hq : (a - pageAddr FIRSTPAGE) / PAGESIZE < n := by
      have := h1.1; have := h1.2
      rw [Nat.div_lt_iff_lt_mul (by simp only [PAGESIZE]; omega)]
      rw [Nat.mul_comm]
      omega
    rw [h _ hq]
    simp
  · have h2 : ¬ (pageAddr FIRSTPAGE ≤ a ∧ a < pageAddr FIRSTPAGE + PAGESIZE * n ∧
        pageDiffers fl image ((a - pageAddr FIRSTPAGE) / PAGESIZE) = true) :=
      fun h => h1 ⟨h.1, h.2.1⟩
    rw [if_neg h2]

theorem pageDiffers_of_chunk_nil (fl : Flash) (image : List Byte) (i : Nat)
    (h : (chunk image i).length = 0) : pageDiffers fl image i = false := by
  have hnil : chunk image i = [] := List.length_eq_zero.1 h
  simp [pageDiffers, hnil, flashBytes]

/-- The passes that can rewrite a page are those of the `ceil (L / PAGESIZE)` pages of the
image: a last pass that reads nothing compares nothing. -/
theorem filter_passes (fl : Flash) (image : List Byte) :
    (List.range (passes image)).filter (pageDiffers fl image) =
      (List.range (min ((image.length + 2047) / 2048) 238)).filter (pageDiffers fl image) := by
  by_cases h : passes image = min ((image.length + 2047) / 2048) 238
  · rw [h]
  · have h1 : passes image = min ((image.length + 2047) / 2048) 238 + 1 := by
      simp only [passes, PAGESIZE, LASTPAGE, FIRSTPAGE] at *; omega
    have h2 : (chunk image (min ((image.length + 2047) / 2048) 238)).length = 0 := by
      rw [chunk_length]
      simp only [passes, PAGESIZE, LASTPAGE, FIRSTPAGE] at *; omega
    rw [h1, List.range_succ, List.filter_append]
    simp [List.filter, pageDiffers_of_chunk_nil fl image _ h2]

theorem chunk_last (image : List Byte) (q r : Nat) (hL : image.length = 2048 * q + r)
    (hr : r < 2048) : chunk image q = image.drop (2048 * q) := by
  simp only [chunk, PAGESIZE]
  exact List.take_of_length_le (by rw [List.length_drop]; omega)

theorem programmed_iff_pageDiffers (fl : Flash) (image : List Byte) (q : Nat) (s : sequence_t)
    (hq : q < passes image) :
    (∃ d sz, Call.programPage (10 + q) d sz ∈
        prologue ++ (List.range (passes image)).flatMap (passCalls fl image) ++
          [Call.led_sequence s, Call.boot]) ↔ pageDiffers fl image q = true := by
  constructor
  · rintro ⟨d, sz, h⟩
    obtain ⟨i, _, hd, hi, _⟩ := (programPage_mem_update _ _ _ _ _ _ _).1 h
    have : i = q := by simp only [FIRSTPAGE] at hi; omega
    exact this ▸ hd
  · intro hd
    exact ⟨_, _, (programPage_mem_update _ _ _ _ _ _ _).2 ⟨q, hq, hd, rfl, rfl, rfl⟩⟩

/-! ## The unlock -/

theorem count_unlock_flatMap (fl : Flash) (image : List Byte) (n : Nat) :
    ((List.range n).flatMap (passCalls fl image)).count Call.HAL_FLASH_Unlock =
      if (List.range n).any (pageDiffers fl image) = true then 1 else 0 := by
  induction n with
  | zero => rfl
  | succ n ih =>
    rw [List.range_succ, List.flatMap_append, List.count_append, ih, ← List.range_succ,
      any_range_succ]
    by_cases hd : pageDiffers fl image n = true
    · by_cases ha : (List.range n).any (pageDiffers fl image) = true
      · simp [passCalls, hd, ha, List.count_cons]
      · simp [passCalls, hd, ha, List.count_cons]
    · by_cases ha : (List.range n).any (pageDiffers fl image) = true
      · simp [passCalls, hd, ha, List.count_cons]
      · simp [passCalls, hd, ha, List.count_cons]

theorem count_unlock_update (fl : Flash) (image : List Byte) (n : Nat) (s : sequence_t) :
    (prologue ++ (List.range n).flatMap (passCalls fl image) ++
        [Call.led_sequence s, Call.boot]).count Call.HAL_FLASH_Unlock =
      if (List.range n).any (pageDiffers fl image) = true then 1 else 0 := by
  rw [List.count_append, List.count_append, count_unlock_flatMap]
  simp [prologue, List.count_cons]

/-- Splitting a trace `l ++ m` at an `erasePage` call: an unlock precedes the call if it
does so in `l`, or else in `m` after an unlock in `l` or in front of the call in `m`. -/
theorem unlock_before_erase_append (l m : List Call)
    (hl : ∀ pre p post, l = pre ++ Call.erasePage p :: post → Call.HAL_FLASH_Unlock ∈ pre)
    (hm : ∀ pre p post, m = pre ++ Call.erasePage p :: post →
      Call.HAL_FLASH_Unlock ∈ l ∨ Call.HAL_FLASH_Unlock ∈ pre) :
    ∀ pre p post, l ++ m = pre ++ Call.erasePage p :: post →
      Call.HAL_FLASH_Unlock ∈ pre := by
  intro pre p post h
  rcases List.append_eq_append_iff.1 h with ⟨a, ha1, ha2⟩ | ⟨c, hc1, hc2⟩
  · rw [ha1]
    rcases hm a p post ha2 with h1 | h1
    · exact List.mem_append_left _ h1
    · exact List.mem_append_right _ h1
  · cases c with
    | nil =>
      rw [List.nil_append] at hc2
      rw [List.append_nil] at hc1
      rw [← hc1]
      rcases hm [] p post hc2.symm with h1 | h1
      · exact h1
      · exact absurd h1 (List.not_mem_nil _)
    | cons x c =>
      rw [List.cons_append] at hc2
      have hx : x = Call.erasePage p := (List.cons.inj hc2).1.symm
      subst hx
      exact hl pre p c hc1

theorem unlock_before_erase_passes (fl : Flash) (image : List Byte) (n : Nat) :
    ∀ pre p post, prologue ++ (List.range n).flatMap (passCalls fl image)
        = pre ++ Call.erasePage p :: post → Call.HAL_FLASH_Unlock ∈ pre := by
  induction n with
  | zero =>
    intro pre p post h
    have hmem : Call.erasePage p ∈ prologue ++ (List.range 0).flatMap (passCalls fl image) := by
      rw [h]; simp
    simp [prologue] at hmem
  | succ n ih =>
    rw [List.range_succ, List.flatMap_append, ← List.append_assoc]
    apply unlock_before_erase_append _ _ ih
    intro pre p post h
    simp only [List.flatMap_cons, List.flatMap_nil, List.append_nil, passCalls] at h
    by_cases hd : pageDiffers fl image n = true
    · by_cases ha : (List.range n).any (pageDiffers fl image) = true
      · left
        obtain ⟨i, hi, hdi⟩ := (any_range_iff _ _).1 ha
        have := (unlock_mem_update fl image n sequence_t.NO_SDCARD).2 ⟨i, hi, hdi⟩
        simpa using this
      · right
        rw [if_pos hd, if_neg ha] at h
        rcases pre with _ | ⟨x, pre⟩
        · simp at h
        · rcases pre with _ | ⟨y, pre⟩
          · simp at h
          · simp only [List.cons_append, List.singleton_append, List.cons.injEq] at h
            rw [← h.2.1]
            simp
    · rw [if_neg hd] at h
      rcases pre with _ | ⟨x, pre⟩
      · simp at h
      · simp at h

/-! ## The shape of a trace -/

theorem passCalls_kind (fl : Flash) (image : List Byte) (i : Nat) (c : Call)
    (h : c ∈ passCalls fl image i) : c = Call.f_read PAGESIZE ∨ isFlashCall c = true := by
  simp only [passCalls, List.mem_cons] at h
  rcases h with h | h
  · exact Or.inl h
  · right
    by_cases hd : pageDiffers fl image i = true
    · rw [if_pos hd] at h
      by_cases ha : (List.range i).any (pageDiffers fl image) = true
      · rw [if_pos ha] at h
        simp only [List.nil_append, List.mem_cons, List.mem_singleton, List.not_mem_nil,
          or_false] at h
        rcases h with h | h <;> subst h <;> rfl
      · rw [if_neg ha] at h
        simp only [List.singleton_append, List.mem_cons, List.mem_singleton,
          List.not_mem_nil, or_false] at h
        rcases h with h | h | h <;> subst h <;> rfl
    · rw [if_neg hd] at h
      exact absurd h (List.not_mem_nil _)

theorem loopCalls_kind (fl : Flash) (image : List Byte) (n : Nat) (c : Call)
    (h : c ∈ (List.range n).flatMap (passCalls fl image)) :
    c = Call.f_read PAGESIZE ∨ isFlashCall c = true := by
  obtain ⟨i, _, hi⟩ := List.mem_flatMap.1 h
  exact passCalls_kind fl image i c hi

/-- Every `programPage` call of a run is for a page below `LASTPAGE` and hands over 2048
bytes. -/
theorem bootloader_programPage_calls (env : Env) (fl : Flash) :
    ∃ r, bootloader env fl = some r ∧
      ∀ p d s, Call.programPage p d s ∈ r.calls → s = 2048 ∧ p < LASTPAGE := by
  by_cases hok : env.cardDetect = 0 ∧ env.mountRes = 0 ∧ env.openRes = 0
  · obtain ⟨hc, hm, ho⟩ := hok
    refine ⟨_, bootloader_update env fl hc hm ho, ?_⟩
    intro p d s hp
    obtain ⟨i, hi, _, rfl, _, rfl⟩ := (programPage_mem_update _ _ _ _ _ _ _).1 hp
    have := passes_le env.image
    exact ⟨rfl, by simp only [LASTPAGE, FIRSTPAGE] at *; omega⟩
  · have h : env.cardDetect ≠ 0 ∨ env.mountRes ≠ 0 ∨ env.openRes ≠ 0 := by
      by_contra hcon
      simp only [not_or, not_not] at hcon
      exact hok hcon
    obtain ⟨calls, hrun, hcalls⟩ := bootloader_fallback env fl h
    refine ⟨_, hrun, ?_⟩
    intro p d s hp
    rcases hcalls with hc | hc | hc <;> subst hc <;> simp at hp

theorem count_f_read_flatMap (fl : Flash) (image : List Byte) (n : Nat) :
    ((List.range n).flatMap (passCalls fl image)).count (Call.f_read PAGESIZE) = n := by
  induction n with
  | zero => rfl
  | succ n ih =>
    rw [List.range_succ, List.flatMap_append, List.count_append, ih]
    by_cases hd : pageDiffers fl image n = true
    · by_cases ha : (List.range n).any (pageDiffers fl image) = true
      · simp [passCalls, hd, ha, List.count_cons]
      · simp [passCalls, hd, ha, List.count_cons]
    · simp [passCalls, hd, List.count_cons]

/-- How the loop can end: the test `page < LASTPAGE` fails, or a pass ends in `break`. -/
theorem whileLoop_exit :
    ∀ (fuel : Nat) (st st' : LoopState), whileLoop fuel st = some st' →
      ¬ st'.page < LASTPAGE ∨ ∃ st0, st0.page < LASTPAGE ∧ loopBody st0 = (st', true) := by
  intro fuel
  induction fuel with
  | zero => intro st st' h; simp [whileLoop] at h
  | succ fuel ih =>
    intro st st' h
    simp only [whileLoop] at h
    by_cases hlt : st.page < LASTPAGE
    · rw [if_pos hlt] at h
      rcases hb : loopBody st with ⟨st1, b⟩
      rw [hb] at h
      cases b with
      | true =>
        have h1 : st1 = st' := Option.some.inj h
        exact Or.inr ⟨st, hlt, by rw [hb, h1]⟩
      | false => exact ih st1 st' h
    · rw [if_neg hlt] at h
      have h1 : st = st' := Option.some.inj h
      exact Or.inl (h1 ▸ hlt)

theorem flashAfter_frame (fl : Flash) (image : List Byte) (n a : Nat)
    (h : ¬ (pageAddr FIRSTPAGE ≤ a ∧ a < pageAddr FIRSTPAGE + PAGESIZE * n ∧
      pageDiffers fl image ((a - pageAddr FIRSTPAGE) / PAGESIZE) = true)) :
    flashAfter fl image n a = fl a := by
  simp only [flashAfter]
  rw [if_neg h]

theorem pageAddr_first : pageAddr FIRSTPAGE = FLASH_BASE + 2048 * 10 := by decide

theorem flashCalls_passCalls (fl : Flash) (image : List Byte) (i : Nat) :
    flashCalls (passCalls fl image i) =
      if pageDiffers fl image i = true then
        (if (List.range i).any (pageDiffers fl image) = true then []
          else [Call.HAL_FLASH_Unlock]) ++
          [Call.erasePage (FIRSTPAGE + i),
           Call.programPage (FIRSTPAGE + i) (padded (chunk image i)) 2048]
      else [] := by
  by_cases hd : pageDiffers fl image i = true
  · by_cases ha : (List.range i).any (pageDiffers fl image) = true
    · simp [flashCalls, passCalls, hd, ha, isFlashCall, List.filter]
    · simp [flashCalls, passCalls, hd, ha, isFlashCall, List.filter]
  · simp [flashCalls, passCalls, hd, isFlashCall, List.filter]

theorem flashCalls_flatMap (fl : Flash) (image : List Byte) (n : Nat) :
    flashCalls ((List.range n).flatMap (passCalls fl image)) =
      (if (List.range n).any (pageDiffers fl image) = true then [Call.HAL_FLASH_Unlock]
        else []) ++
      ((List.range n).filter (pageDiffers fl image)).flatMap fun i =>
        [Call.erasePage (FIRSTPAGE + i),
         Call.programPage (FIRSTPAGE + i) (padded (chunk image i)) 2048] := by
  induction n with
  | zero => rfl
  | succ n ih =>
    have happ : flashCalls ((List.range n).flatMap (passCalls fl image) ++ passCalls fl image n)
        = flashCalls ((List.range n).flatMap (passCalls fl image)) ++
          flashCalls (passCalls fl image n) := by
      simp only [flashCalls, List.filter_append]
    rw [any_range_succ, List.range_succ, List.flatMap_append, List.filter_append,
      List.flatMap_append]
    simp only [List.flatMap_cons, List.flatMap_nil, List.append_nil]
    rw [happ, ih, flashCalls_passCalls]
    by_cases hd : pageDiffers fl image n = true
    · by_cases ha : (List.range n).any (pageDiffers fl image) = true
      · simp [hd, ha, List.filter]
      · have hf : (List.range n).filter (pageDiffers fl image) = [] := by
          rw [List.filter_eq_nil_iff]
          intro i hi hdi
          exact ha ((any_range_iff _ _).2 ⟨i, List.mem_range.1 hi, hdi⟩)
        simp [hd, ha, hf, List.filter]
    · by_cases ha : (List.range n).any (pageDiffers fl image) = true
      · simp [hd, ha, List.filter]
      · simp [hd, ha, List.filter]

/-- After a run with the card in, the application region starts with the image. -/
theorem flashAfter_image (fl : Flash) (image : List Byte) (i : Nat)
    (hi : i < min image.length (238 * 2048)) :
    image[i]? = some (flashAfter fl image (passes image) (FLASH_BASE + 2048 * 10 + i)) := by
  have hq : i / 2048 < passes image := by
    simp only [passes, PAGESIZE, LASTPAGE, FIRSTPAGE]; omega
  have hj : i % 2048 < (chunk image (i / 2048)).length := by
    rw [chunk_length]; simp only [PAGESIZE]; omega
  have h := flashAfter_chunk fl image (passes image) (i / 2048) (i % 2048)
    (passes_le _) hq hj
  rw [chunk_getElem? _ _ _ (by simp only [PAGESIZE]; omega)] at h
  have e1 : PAGESIZE * (i / 2048) + i % 2048 = i := by simp only [PAGESIZE]; omega
  have e2 : pageAddr FIRSTPAGE + PAGESIZE * (i / 2048) + i % 2048
      = FLASH_BASE + 2048 * 10 + i := by
    rw [pageAddr_first]
    simp only [PAGESIZE]; omega
  rw [e1, e2] at h
  exact h

theorem getD_of_getElem? (l : List Byte) (i : Nat) (b : Byte) (h : l[i]? = some b) :
    l.getD i 0 = b := by
  rw [List.getD_eq_getElem?_getD, h]
  rfl

/-! ## The claims -/

/-- C1 (fallback safety): if the card-detect input reads true, or `f_mount` or `f_open`
returns a non-zero result, the run makes no `HAL_FLASH_Unlock`, no `erasePage` and no
`programPage` call, leaves the flash exactly as it was, and the one outcome passed to
`led_sequence` is `NO_SDCARD`. -/
theorem C1_fallback_safety (env : Env) (fl : Flash)
    (h : env.cardDetect ≠ 0 ∨ env.mountRes ≠ 0 ∨ env.openRes ≠ 0) :
    ∃ r, bootloader env fl = some r ∧
      Call.HAL_FLASH_Unlock ∉ r.calls ∧
      (∀ p, Call.erasePage p ∉ r.calls) ∧
      (∀ p d s, Call.programPage p d s ∉ r.calls) ∧
      r.flash = fl ∧
      outcomes r.calls = [sequence_t.NO_SDCARD] := by
  obtain ⟨calls, hrun, hcalls⟩ := bootloader_fallback env fl h
  refine ⟨_, hrun, ?_⟩
  rcases hcalls with hc | hc | hc <;> subst hc <;>
    simp [outcomes, List.filterMap]

/-- C1, at a run without a card: a three-byte image and an erased flash. -/
theorem C1_fallback_safety_witness :
    ((1 : Nat) ≠ 0 ∨ (0 : Nat) ≠ 0 ∨ (0 : Nat) ≠ 0) ∧
    ∃ r, bootloader ⟨1, 0, 0, [1, 2, 3]⟩ (fun _ => 0xFF) = some r ∧
      Call.HAL_FLASH_Unlock ∉ r.calls ∧
      (∀ p, Call.erasePage p ∉ r.calls) ∧
      (∀ p d s, Call.programPage p d s ∉ r.calls) ∧
      r.flash = (fun _ => 0xFF) ∧
      outcomes r.calls = [sequence_t.NO_SDCARD] :=
  ⟨Or.inl (by decide), C1_fallback_safety ⟨1, 0, 0, [1, 2, 3]⟩ (fun _ => 0xFF) (Or.inl (by decide))⟩

/-- C2 (range containment): for every image, of any length, and every flash content, every
`erasePage` and every `programPage` call of the run has a page index `p` with
`FIRSTPAGE <= p < LASTPAGE` (`10 <= p < 248`), and every word that such a `programPage` call
programs lies, whole, at an address in `[FLASH_BASE + 2048*10, FLASH_BASE + 2048*248)`. -/
theorem C2_range_containment (env : Env) (fl : Flash) :
    ∃ r, bootloader env fl = some r ∧
      (∀ p, Call.erasePage p ∈ r.calls → 10 ≤ p ∧ p < 248 ∧ FIRSTPAGE ≤ p ∧ p < LASTPAGE) ∧
      (∀ p d s, Call.programPage p d s ∈ r.calls →
        10 ≤ p ∧ p < 248 ∧ FIRSTPAGE ≤ p ∧ p < LASTPAGE ∧
        ∀ fl' a w, (a, w) ∈ programPageWrites p d s fl' →
          FLASH_BASE + 2048 * 10 ≤ a ∧ a < FLASH_BASE + 2048 * 248 ∧
          a + 4 ≤ FLASH_BASE + 2048 * 248) := by
  by_cases hok : env.cardDetect = 0 ∧ env.mountRes = 0 ∧ env.openRes = 0
  · obtain ⟨hc, hm, ho⟩ := hok
    refine ⟨_, bootloader_update env fl hc hm ho, ?_, ?_⟩
    · intro p hp
      obtain ⟨i, hi, _, rfl⟩ := (erasePage_mem_update _ _ _ _ _).1 hp
      simp only [passes, LASTPAGE, FIRSTPAGE] at *
      omega
    · intro p d s hp
      obtain ⟨i, hi, _, rfl, rfl, rfl⟩ := (programPage_mem_update _ _ _ _ _ _ _).1 hp
      have hi2 : i < 238 := by simp only [passes, LASTPAGE, FIRSTPAGE] at hi; omega
      have hpa := pageAddr_eq (FIRSTPAGE + i) (by simp only [LASTPAGE, FIRSTPAGE]; omega)
      refine ⟨?_, ?_, ?_, ?_, ?_⟩
      · simp only [FIRSTPAGE]; omega
      · simp only [FIRSTPAGE]; omega
      · omega
      · simp only [LASTPAGE, FIRSTPAGE]; omega
      · intro fl' a w hw
        rw [programPageWrites_eq] at hw
        obtain ⟨k, hk, hkw⟩ := List.mem_map.1 hw
        have hk2 : k < 512 := by simpa using hk
        have ha : a = (pageAddr (FIRSTPAGE + i) + 4 * k) % 2 ^ 32 :=
          (congrArg Prod.fst hkw).symm
        rw [hpa] at ha
        simp only [FLASH_BASE, PAGESIZE, FIRSTPAGE] at *
        omega
  · have h : env.cardDetect ≠ 0 ∨ env.mountRes ≠ 0 ∨ env.openRes ≠ 0 := by
      by_contra hcon
      simp only [not_or, not_not] at hcon
      exact hok hcon
    obtain ⟨calls, hrun, hcalls⟩ := bootloader_fallback env fl h
    refine ⟨_, hrun, ?_⟩
    rcases hcalls with hc | hc | hc <;> subst hc <;> simp

/-- C3 (idempotence): with the card there and mount and open succeeding, a second run with
the same image on the flash left by the first run makes no `erasePage` and no
`programPage` call (and no `HAL_FLASH_Unlock`), and signals `JUST_BOOTED`. -/
theorem C3_idempotence (env : Env) (fl : Flash) (hc : env.cardDetect = 0)
    (hm : env.mountRes = 0) (ho : env.openRes = 0) :
    ∃ r1 r2, bootloader env fl = some r1 ∧ bootloader env r1.flash = some r2 ∧
      flashOps r2.calls = [] ∧
      (∀ p, Call.erasePage p ∉ r2.calls) ∧
      (∀ p d s, Call.programPage p d s ∉ r2.calls) ∧
      Call.HAL_FLASH_Unlock ∉ r2.calls ∧
      outcomes r2.calls = [sequence_t.JUST_BOOTED] ∧
      r2.flash = r1.flash := by
  have hsame : ∀ i, i < passes env.image →
      pageDiffers (flashAfter fl env.image (passes env.image)) env.image i = false :=
    fun i hi => pageDiffers_flashAfter fl env.image _ i (passes_le _) hi
  have hany : ¬ (List.range (passes env.image)).any
      (pageDiffers (flashAfter fl env.image (passes env.image)) env.image) = true := by
    rw [any_range_iff]
    rintro ⟨i, hi, hd⟩
    rw [hsame i hi] at hd
    exact Bool.false_ne_true hd
  refine ⟨_, _, bootloader_update env fl hc hm ho,
    bootloader_update env _ hc hm ho, ?_, ?_, ?_, ?_, ?_, ?_⟩
  · rw [flashOps_update]
    have hf : (List.range (passes env.image)).filter
        (pageDiffers (flashAfter fl env.image (passes env.image)) env.image) = [] := by
      rw [List.filter_eq_nil_iff]
      intro i hi
      rw [hsame i (List.mem_range.1 hi)]
      exact Bool.false_ne_true
    rw [hf]
    rfl
  · intro p hp
    obtain ⟨i, hi, hd, _⟩ := (erasePage_mem_update _ _ _ _ _).1 hp
    rw [hsame i hi] at hd
    exact Bool.false_ne_true hd
  · intro p d s hp
    obtain ⟨i, hi, hd, _⟩ := (programPage_mem_update _ _ _ _ _ _ _).1 hp
    rw [hsame i hi] at hd
    exact Bool.false_ne_true hd
  · intro hp
    obtain ⟨i, hi, hd⟩ := (unlock_mem_update _ _ _ _).1 hp
    rw [hsame i hi] at hd
    exact Bool.false_ne_true hd
  · rw [outcomes_update, if_neg hany]
  · exact flashAfter_eq_self _ env.image _ hsame

/-- C3, at a run with the card in: a three-byte image and an erased flash. -/
theorem C3_idempotence_witness :
    ((⟨0, 0, 0, [1, 2, 3]⟩ : Env).cardDetect = 0 ∧ (⟨0, 0, 0, [1, 2, 3]⟩ : Env).mountRes = 0 ∧
      (⟨0, 0, 0, [1, 2, 3]⟩ : Env).openRes = 0) ∧
    ∃ r1 r2, bootloader ⟨0, 0, 0, [1, 2, 3]⟩ (fun _ => 0xFF) = some r1 ∧
      bootloader ⟨0, 0, 0, [1, 2, 3]⟩ r1.flash = some r2 ∧
      flashOps r2.calls = [] ∧
      (∀ p, Call.erasePage p ∉ r2.calls) ∧
      (∀ p d s, Call.programPage p d s ∉ r2.calls) ∧
      Call.HAL_FLASH_Unlock ∉ r2.calls ∧
      outcomes r2.calls = [sequence_t.JUST_BOOTED] ∧
      r2.flash = r1.flash :=
  ⟨⟨rfl, rfl, rfl⟩, C3_idempotence ⟨0, 0, 0, [1, 2, 3]⟩ (fun _ => 0xFF) rfl rfl rfl⟩

/-- C4 (the image is copied verbatim): with the card there and mount and open succeeding,
after the run the flash byte at `FLASH_BASE + 2048*10 + i` is byte `i` of the image, for
every `i < min L (238*2048)`. -/
theorem C4_image_copied_verbatim (env : Env) (fl : Flash) (hc : env.cardDetect = 0)
    (hm : env.mountRes = 0) (ho : env.openRes = 0) :
    ∃ r, bootloader env fl = some r ∧
      ∀ i, i < min env.image.length (238 * 2048) →
        env.image[i]? = some (r.flash (FLASH_BASE + 2048 * 10 + i)) := by
  refine ⟨_, bootloader_update env fl hc hm ho, ?_⟩
  intro i hi
  show _ = some (flashAfter fl env.image (passes env.image) _)
  have hq : i / 2048 < passes env.image := by
    simp only [passes, PAGESIZE, LASTPAGE, FIRSTPAGE]; omega
  have hj : i % 2048 < (chunk env.image (i / 2048)).length := by
    rw [chunk_length]; simp only [PAGESIZE]; omega
  have h := flashAfter_chunk fl env.image (passes env.image) (i / 2048) (i % 2048)
    (passes_le _) hq hj
  rw [chunk_getElem? _ _ _ (by simp only [PAGESIZE]; omega)] at h
  have e1 : PAGESIZE * (i / 2048) + i % 2048 = i := by simp only [PAGESIZE]; omega
  have e2 : pageAddr FIRSTPAGE + PAGESIZE * (i / 2048) + i % 2048
      = FLASH_BASE + 2048 * 10 + i := by
    rw [pageAddr_eq _ (by simp only [LASTPAGE, FIRSTPAGE]; omega)]
    simp only [PAGESIZE, FIRSTPAGE, FLASH_BASE]; omega
  rw [e1, e2] at h
  exact h

/-- C4, at a run with the card in: a three-byte image and an erased flash. -/
theorem C4_image_copied_verbatim_witness :
    ((⟨0, 0, 0, [1, 2, 3]⟩ : Env).cardDetect = 0 ∧ (⟨0, 0, 0, [1, 2, 3]⟩ : Env).mountRes = 0 ∧
      (⟨0, 0, 0, [1, 2, 3]⟩ : Env).openRes = 0) ∧
    ∃ r, bootloader ⟨0, 0, 0, [1, 2, 3]⟩ (fun _ => 0xFF) = some r ∧
      ∀ i, i < min (⟨0, 0, 0, [1, 2, 3]⟩ : Env).image.length (238 * 2048) →
        (⟨0, 0, 0, [1, 2, 3]⟩ : Env).image[i]? = some (r.flash (FLASH_BASE + 2048 * 10 + i)) :=
  ⟨⟨rfl, rfl, rfl⟩, C4_image_copied_verbatim ⟨0, 0, 0, [1, 2, 3]⟩ (fun _ => 0xFF) rfl rfl rfl⟩

/-- C5 (exactly the differing pages are rewritten): with the card there and mount and open
succeeding, the `erasePage` and `programPage` calls of the run are, in order, one
`erasePage (10+i)` followed by one `programPage (10+i)` of the padded chunk for each
`i < min (ceil (L/2048)) 238` whose chunk differs in at least one byte from the flash bytes
at the same offsets of page `10+i`, and no others.  So an image of exactly 3 pages that all
differ gives exactly the calls erase/program on pages 10, 11, 12 and outcome `PROGRAMMED`,
and an image of `2048+10` bytes never has a page other than 10 or 11 programmed. -/
theorem C5_exactly_differing_pages (env : Env) (fl : Flash) (hc : env.cardDetect = 0)
    (hm : env.mountRes = 0) (ho : env.openRes = 0) :
    ∃ r, bootloader env fl = some r ∧
      flashOps r.calls =
        ((List.range (min ((env.image.length + 2047) / 2048) 238)).filter
            (pageDiffers fl env.image)).flatMap (fun i =>
          [Call.erasePage (10 + i),
           Call.programPage (10 + i) (padded (chunk env.image i)) 2048]) ∧
      (∀ i, i < 238 →
        (pageDiffers fl env.image i = true ↔
          ∃ j, j < 2048 ∧ 2048 * i + j < env.image.length ∧
            env.image[2048 * i + j]? ≠ some (fl (FLASH_BASE + 2048 * (10 + i) + j)))) ∧
      (env.image.length = 3 * 2048 → (∀ i, i < 3 → pageDiffers fl env.image i = true) →
        flashOps r.calls =
          [Call.erasePage 10, Call.programPage 10 (padded (chunk env.image 0)) 2048,
           Call.erasePage 11, Call.programPage 11 (padded (chunk env.image 1)) 2048,
           Call.erasePage 12, Call.programPage 12 (padded (chunk env.image 2)) 2048] ∧
        outcomes r.calls = [sequence_t.PROGRAMMED]) ∧
      (env.image.length = 2048 + 10 →
        ∀ p d s, Call.programPage p d s ∈ r.calls → p = 10 ∨ p = 11) := by
  refine ⟨_, bootloader_update env fl hc hm ho, ?_, ?_, ?_, ?_⟩
  · rw [flashOps_update, filter_passes]
    rfl
  · intro i hi
    have h := pageDiffers_eq_false_iff fl env.image i
      (by simp only [LASTPAGE, FIRSTPAGE]; omega)
    simp only [PAGESIZE, FIRSTPAGE] at h
    constructor
    · intro hd
      by_contra hne
      have hall : ∀ j, j < 2048 → 2048 * i + j < env.image.length →
          env.image[2048 * i + j]? = some (fl (FLASH_BASE + 2048 * (10 + i) + j)) := by
        intro j hj hjL
        by_contra hx
        exact hne ⟨j, hj, hjL, hx⟩
      rw [h.2 hall] at hd
      exact Bool.false_ne_true hd
    · rintro ⟨j, hj, hjL, hx⟩
      by_contra hd
      exact hx (h.1 (by simpa using hd) j hj hjL)
  · intro hL hall
    have hp : passes env.image = 4 := by
      simp only [passes, PAGESIZE, LASTPAGE, FIRSTPAGE, hL]; decide
    have h0 := hall 0 (by omega)
    have h1 := hall 1 (by omega)
    have h2 := hall 2 (by omega)
    have h3 : pageDiffers fl env.image 3 = false :=
      pageDiffers_of_chunk_nil fl env.image 3 (by
        rw [chunk_length]; simp only [PAGESIZE, hL]; decide)
    constructor
    · rw [flashOps_update, hp]
      simp [List.range_succ, List.filter, h0, h1, h2, h3, FIRSTPAGE]
    · rw [outcomes_update, hp]
      simp [List.range_succ, h0]
  · intro hL p d s hp
    obtain ⟨i, hi, _, rfl, _⟩ := (programPage_mem_update _ _ _ _ _ _ _).1 hp
    simp only [passes, PAGESIZE, LASTPAGE, FIRSTPAGE, hL] at hi ⊢
    omega

/-- C5, at a run with the card in: a three-byte image and an erased flash. -/
theorem C5_exactly_differing_pages_witness :
    (⟨0, 0, 0, [1, 2, 3]⟩ : Env).cardDetect = 0 ∧
    ∃ r, bootloader ⟨0, 0, 0, [1, 2, 3]⟩ (fun _ => 0xFF) = some r ∧
      flashOps r.calls =
        ((List.range (min (((⟨0, 0, 0, [1, 2, 3]⟩ : Env).image.length + 2047) / 2048) 238)).filter
            (pageDiffers (fun _ => 0xFF) [1, 2, 3])).flatMap (fun i =>
          [Call.erasePage (10 + i),
           Call.programPage (10 + i) (padded (chunk [1, 2, 3] i)) 2048]) :=
  ⟨rfl, by
    obtain ⟨r, h1, h2, _⟩ :=
      C5_exactly_differing_pages ⟨0, 0, 0, [1, 2, 3]⟩ (fun _ => 0xFF) rfl rfl rfl
    exact ⟨r, h1, h2⟩⟩

/-- C6 (equivalence up to padding): for an image of length `L = 2048*q + r` with
`0 < r < 2048` and `q < 238`, the last, partial page `10+q` is programmed exactly when the
first `r` bytes of flash page `10+q` differ from the last `r` bytes of the image — so a
flash that has the same first `r` bytes on that page leads to the same decision — and the
page handed to `programPage` is those `r` image bytes followed by `2048 - r` bytes `0xFF`,
2048 bytes in all. -/
theorem C6_equivalence_up_to_padding (env : Env) (fl : Flash) (q r : Nat)
    (hc : env.cardDetect = 0) (hm : env.mountRes = 0) (ho : env.openRes = 0)
    (hL : env.image.length = 2048 * q + r) (hr0 : 0 < r) (hr : r < 2048) (hq : q < 238) :
    ∃ run, bootloader env fl = some run ∧
      ((∃ d s, Call.programPage (10 + q) d s ∈ run.calls) ↔
        flashBytes fl (FLASH_BASE + 2048 * (10 + q)) r ≠ env.image.drop (2048 * q)) ∧
      (∀ d s, Call.programPage (10 + q) d s ∈ run.calls →
        d = env.image.drop (2048 * q) ++ List.replicate (2048 - r) 0xFF ∧
        (env.image.drop (2048 * q)).length = r ∧ d.length = 2048 ∧ s = 2048) ∧
      (∀ fl2 : Flash,
        (∀ j, j < r → fl2 (FLASH_BASE + 2048 * (10 + q) + j)
          = fl (FLASH_BASE + 2048 * (10 + q) + j)) →
        ∃ run2, bootloader env fl2 = some run2 ∧
          ((∃ d s, Call.programPage (10 + q) d s ∈ run2.calls) ↔
            (∃ d s, Call.programPage (10 + q) d s ∈ run.calls))) := by
  have hqp : q < passes env.image := by
    simp only [passes, PAGESIZE, LASTPAGE, FIRSTPAGE]; omega
  have hch := chunk_last env.image q r hL hr
  have hlen : (env.image.drop (2048 * q)).length = r := by
    rw [List.length_drop]; omega
  have hpa : pageAddr (FIRSTPAGE + q) = FLASH_BASE + 2048 * (10 + q) :=
    pageAddr_eq _ (by simp only [LASTPAGE, FIRSTPAGE]; omega)
  have hdiff : ∀ f : Flash, pageDiffers f env.image q = true ↔
      flashBytes f (FLASH_BASE + 2048 * (10 + q)) r ≠ env.image.drop (2048 * q) := by
    intro f
    simp only [pageDiffers, hch, hlen, hpa, bne_iff_ne]
  refine ⟨_, bootloader_update env fl hc hm ho, ?_, ?_, ?_⟩
  · rw [programmed_iff_pageDiffers fl env.image q _ hqp]
    exact hdiff fl
  · intro d s h
    obtain ⟨i, _, _, hi, hd, hs⟩ := (programPage_mem_update _ _ _ _ _ _ _).1 h
    have hiq : i = q := by simp only [FIRSTPAGE] at hi; omega
    subst hiq
    rw [hd, hch]
    refine ⟨?_, hlen, ?_, hs⟩
    · simp only [padded, hlen, PAGESIZE]
    · simp only [padded, hlen, PAGESIZE, List.length_append, List.length_replicate]
      omega
  · intro fl2 hsame
    refine ⟨_, bootloader_update env fl2 hc hm ho, ?_⟩
    rw [programmed_iff_pageDiffers fl2 env.image q _ hqp,
      programmed_iff_pageDiffers fl env.image q _ hqp, hdiff fl2, hdiff fl]
    rw [flashBytes_congr fl2 fl r _ (fun a h1 h2 => by
      have := hsame (a - (FLASH_BASE + 2048 * (10 + q))) (by omega)
      rwa [show FLASH_BASE + 2048 * (10 + q) + (a - (FLASH_BASE + 2048 * (10 + q))) = a by
        omega] at this)]

/-- C6, at a three-byte image (`q = 0`, `r = 3`) and an erased flash. -/
theorem C6_equivalence_up_to_padding_witness :
    ((⟨0, 0, 0, [1, 2, 3]⟩ : Env).image.length = 2048 * 0 + 3 ∧ 0 < 3 ∧ 3 < 2048 ∧ 0 < 238) ∧
    ∃ run, bootloader ⟨0, 0, 0, [1, 2, 3]⟩ (fun _ => 0xFF) = some run ∧
      ∀ d s, Call.programPage (10 + 0) d s ∈ run.calls →
        d = List.drop (2048 * 0) [1, 2, 3] ++ List.replicate (2048 - 3) 0xFF ∧
        (List.drop (2048 * 0) ([1, 2, 3] : List Byte)).length = 3 ∧ d.length = 2048 ∧
        s = 2048 :=
  ⟨⟨rfl, by decide, by decide, by decide⟩, by
    obtain ⟨run, h1, _, h2, _⟩ :=
      C6_equivalence_up_to_padding ⟨0, 0, 0, [1, 2, 3]⟩ (fun _ => 0xFF) 0 3 rfl rfl rfl rfl
        (by decide) (by decide) (by decide)
    exact ⟨run, h1, h2⟩⟩

/-- C7 (no-op update): with the card there and mount and open succeeding, if every byte
that is read from the image equals the flash byte at the same offset of the application
region, the run makes no `HAL_FLASH_Unlock`, no `erasePage` and no `programPage` call,
leaves the flash unchanged, and signals `JUST_BOOTED`. -/
theorem C7_noop_update (env : Env) (fl : Flash) (hc : env.cardDetect = 0)
    (hm : env.mountRes = 0) (ho : env.openRes = 0)
    (hsame : ∀ i, i < min env.image.length (238 * 2048) →
      env.image[i]? = some (fl (FLASH_BASE + 2048 * 10 + i))) :
    ∃ r, bootloader env fl = some r ∧
      Call.HAL_FLASH_Unlock ∉ r.calls ∧
      (∀ p, Call.erasePage p ∉ r.calls) ∧
      (∀ p d s, Call.programPage p d s ∉ r.calls) ∧
      r.flash = fl ∧
      outcomes r.calls = [sequence_t.JUST_BOOTED] := by
  have hno : ∀ i, i < passes env.image → pageDiffers fl env.image i = false := by
    intro i hi
    have hi2 : i < 238 := by simp only [passes, LASTPAGE, FIRSTPAGE] at hi; omega
    rw [pageDiffers_eq_false_iff fl env.image i (by simp only [LASTPAGE, FIRSTPAGE]; omega)]
    intro j hj hjL
    simp only [PAGESIZE, FIRSTPAGE] at *
    rw [hsame (2048 * i + j) (by omega)]
    congr 2
    omega
  have hany : ¬ (List.range (passes env.image)).any (pageDiffers fl env.image) = true := by
    rw [any_range_iff]
    rintro ⟨i, hi, hd⟩
    rw [hno i hi] at hd
    exact Bool.false_ne_true hd
  refine ⟨_, bootloader_update env fl hc hm ho, ?_, ?_, ?_, ?_, ?_⟩
  · intro hp
    obtain ⟨i, hi, hd⟩ := (unlock_mem_update _ _ _ _).1 hp
    rw [hno i hi] at hd
    exact Bool.false_ne_true hd
  · intro p hp
    obtain ⟨i, hi, hd, _⟩ := (erasePage_mem_update _ _ _ _ _).1 hp
    rw [hno i hi] at hd
    exact Bool.false_ne_true hd
  · intro p d s hp
    obtain ⟨i, hi, hd, _⟩ := (programPage_mem_update _ _ _ _ _ _ _).1 hp
    rw [hno i hi] at hd
    exact Bool.false_ne_true hd
  · exact flashAfter_eq_self fl env.image _ hno
  · rw [outcomes_update, if_neg hany]

/-- C7, at an image of three bytes `0xFF` on an erased flash. -/
theorem C7_noop_update_witness :
    ((⟨0, 0, 0, [0xFF, 0xFF, 0xFF]⟩ : Env).cardDetect = 0 ∧
      (⟨0, 0, 0, [0xFF, 0xFF, 0xFF]⟩ : Env).mountRes = 0 ∧
      (⟨0, 0, 0, [0xFF, 0xFF, 0xFF]⟩ : Env).openRes = 0 ∧
      ∀ i, i < min (⟨0, 0, 0, [0xFF, 0xFF, 0xFF]⟩ : Env).image.length (238 * 2048) →
        (⟨0, 0, 0, [0xFF, 0xFF, 0xFF]⟩ : Env).image[i]?
          = some ((fun _ => (0xFF : Byte)) (FLASH_BASE + 2048 * 10 + i))) ∧
    ∃ r, bootloader ⟨0, 0, 0, [0xFF, 0xFF, 0xFF]⟩ (fun _ => 0xFF) = some r ∧
      Call.HAL_FLASH_Unlock ∉ r.calls ∧
      (∀ p, Call.erasePage p ∉ r.calls) ∧
      (∀ p d s, Call.programPage p d s ∉ r.calls) ∧
      r.flash = (fun _ => 0xFF) ∧
      outcomes r.calls = [sequence_t.JUST_BOOTED] :=
  have hsame : ∀ i, i < min (⟨0, 0, 0, [0xFF, 0xFF, 0xFF]⟩ : Env).image.length (238 * 2048) →
      (⟨0, 0, 0, [0xFF, 0xFF, 0xFF]⟩ : Env).image[i]?
        = some ((fun _ => (0xFF : Byte)) (FLASH_BASE + 2048 * 10 + i)) := by
    intro i hi
    have hi3 : i < 3 := lt_of_lt_of_le hi (Nat.min_le_left _ _)
    interval_cases i <;> rfl
  ⟨⟨rfl, rfl, rfl, hsame⟩,
    C7_noop_update ⟨0, 0, 0, [0xFF, 0xFF, 0xFF]⟩ (fun _ => 0xFF) rfl rfl rfl hsame⟩

/-- C8 (single unlock): in every run `HAL_FLASH_Unlock` is called exactly once if at least
one page is programmed and not at all if none is, hence never more than once, and every
`erasePage` call, the first one included, has the `HAL_FLASH_Unlock` call before it. -/
theorem C8_single_unlock (env : Env) (fl : Flash) :
    ∃ r, bootloader env fl = some r ∧
      ((∃ p d s, Call.programPage p d s ∈ r.calls) →
        r.calls.count Call.HAL_FLASH_Unlock = 1) ∧
      ((¬ ∃ p d s, Call.programPage p d s ∈ r.calls) →
        r.calls.count Call.HAL_FLASH_Unlock = 0) ∧
      r.calls.count Call.HAL_FLASH_Unlock ≤ 1 ∧
      (∀ pre p post, r.calls = pre ++ Call.erasePage p :: post →
        Call.HAL_FLASH_Unlock ∈ pre) := by
  by_cases hok : env.cardDetect = 0 ∧ env.mountRes = 0 ∧ env.openRes = 0
  · obtain ⟨hc, hm, ho⟩ := hok
    refine ⟨_, bootloader_update env fl hc hm ho, ?_, ?_, ?_, ?_⟩
    · rintro ⟨p, d, s, hp⟩
      obtain ⟨i, hi, hd, _⟩ := (programPage_mem_update _ _ _ _ _ _ _).1 hp
      rw [count_unlock_update, if_pos ((any_range_iff _ _).2 ⟨i, hi, hd⟩)]
    · intro hno
      rw [count_unlock_update, if_neg]
      intro ha
      obtain ⟨i, hi, hd⟩ := (any_range_iff _ _).1 ha
      exact hno ⟨_, _, _, (programPage_mem_update _ _ _ _ _ _ _).2 ⟨i, hi, hd, rfl, rfl, rfl⟩⟩
    · rw [count_unlock_update]
      split <;> omega
    · apply unlock_before_erase_append _ _ (unlock_before_erase_passes fl env.image _)
      intro pre p post h
      have hmem : Call.erasePage p ∈ [Call.led_sequence
          (if (List.range (passes env.image)).any (pageDiffers fl env.image) = true
            then sequence_t.PROGRAMMED else sequence_t.JUST_BOOTED), Call.boot] := by
        rw [h]; simp
      simp at hmem
  · have h : env.cardDetect ≠ 0 ∨ env.mountRes ≠ 0 ∨ env.openRes ≠ 0 := by
      by_contra hcon
      simp only [not_or, not_not] at hcon
      exact hok hcon
    obtain ⟨calls, hrun, hcalls⟩ := bootloader_fallback env fl h
    refine ⟨_, hrun, ?_⟩
    have hnoerase : ∀ p, Call.erasePage p ∉ calls := by
      rcases hcalls with hc | hc | hc <;> subst hc <;> simp
    have hcount : calls.count Call.HAL_FLASH_Unlock = 0 := by
      rcases hcalls with hc | hc | hc <;> subst hc <;> simp [List.count_cons]
    refine ⟨?_, fun _ => hcount, (le_of_eq hcount).trans (Nat.zero_le 1), ?_⟩
    · rintro ⟨p, d, s, hp⟩
      rcases hcalls with hc | hc | hc <;> subst hc <;> simp at hp
    · intro pre p post h
      have h2 : calls = pre ++ Call.erasePage p :: post := h
      exact absurd (by rw [h2]; simp) (hnoerase p)

/-- C9 (outcome): with the card there and mount and open succeeding, the one outcome
passed to `led_sequence` is `PROGRAMMED` exactly when some page was erased and programmed
during the run and `JUST_BOOTED` otherwise; `NO_SDCARD` is not signalled. -/
theorem C9_outcome (env : Env) (fl : Flash) (hc : env.cardDetect = 0)
    (hm : env.mountRes = 0) (ho : env.openRes = 0) :
    ∃ r, bootloader env fl = some r ∧
      (outcomes r.calls = [sequence_t.PROGRAMMED] ↔
        ∃ p, Call.erasePage p ∈ r.calls ∧ ∃ d s, Call.programPage p d s ∈ r.calls) ∧
      (outcomes r.calls = [sequence_t.JUST_BOOTED] ↔
        ¬ ∃ p, Call.erasePage p ∈ r.calls ∧ ∃ d s, Call.programPage p d s ∈ r.calls) ∧
      sequence_t.NO_SDCARD ∉ outcomes r.calls := by
  have key : (∃ p, Call.erasePage p ∈ prologue ++
        (List.range (passes env.image)).flatMap (passCalls fl env.image) ++
        [Call.led_sequence
          (if (List.range (passes env.image)).any (pageDiffers fl env.image) = true
            then sequence_t.PROGRAMMED else sequence_t.JUST_BOOTED), Call.boot] ∧
      ∃ d s, Call.programPage p d s ∈ prologue ++
        (List.range (passes env.image)).flatMap (passCalls fl env.image) ++
        [Call.led_sequence
          (if (List.range (passes env.image)).any (pageDiffers fl env.image) = true
            then sequence_t.PROGRAMMED else sequence_t.JUST_BOOTED), Call.boot]) ↔
      (List.range (passes env.image)).any (pageDiffers fl env.image) = true := by
    constructor
    · rintro ⟨p, hp, _⟩
      obtain ⟨i, hi, hd, _⟩ := (erasePage_mem_update _ _ _ _ _).1 hp
      exact (any_range_iff _ _).2 ⟨i, hi, hd⟩
    · intro ha
      obtain ⟨i, hi, hd⟩ := (any_range_iff _ _).1 ha
      exact ⟨FIRSTPAGE + i, (erasePage_mem_update _ _ _ _ _).2 ⟨i, hi, hd, rfl⟩, _, _,
        (programPage_mem_update _ _ _ _ _ _ _).2 ⟨i, hi, hd, rfl, rfl, rfl⟩⟩
  refine ⟨_, bootloader_update env fl hc hm ho, ?_, ?_, ?_⟩
  · rw [key, outcomes_update]
    by_cases ha : (List.range (passes env.image)).any (pageDiffers fl env.image) = true
    · simp [ha]
    · simp [ha]
  · rw [key, outcomes_update]
    by_cases ha : (List.range (passes env.image)).any (pageDiffers fl env.image) = true
    · simp [ha]
    · simp [ha]
  · rw [outcomes_update]
    by_cases ha : (List.range (passes env.image)).any (pageDiffers fl env.image) = true
    · simp [ha]
    · simp [ha]

/-- C9, at a run with the card in: a three-byte image and an erased flash. -/
theorem C9_outcome_witness :
    ((⟨0, 0, 0, [1, 2, 3]⟩ : Env).cardDetect = 0 ∧ (⟨0, 0, 0, [1, 2, 3]⟩ : Env).mountRes = 0 ∧
      (⟨0, 0, 0, [1, 2, 3]⟩ : Env).openRes = 0) ∧
    ∃ r, bootloader ⟨0, 0, 0, [1, 2, 3]⟩ (fun _ => 0xFF) = some r ∧
      (outcomes r.calls = [sequence_t.PROGRAMMED] ↔
        ∃ p, Call.erasePage p ∈ r.calls ∧ ∃ d s, Call.programPage p d s ∈ r.calls) ∧
      (outcomes r.calls = [sequence_t.JUST_BOOTED] ↔
        ¬ ∃ p, Call.erasePage p ∈ r.calls ∧ ∃ d s, Call.programPage p d s ∈ r.calls) ∧
      sequence_t.NO_SDCARD ∉ outcomes r.calls :=
  ⟨⟨rfl, rfl, rfl⟩, C9_outcome ⟨0, 0, 0, [1, 2, 3]⟩ (fun _ => 0xFF) rfl rfl rfl⟩

/-- C10 (no filesystem work without a card): if the card-detect input reads true, the
calls of the run are the card-detect read itself, the `NO_SDCARD` signal and the boot
transfer, so no `f_mount`, `f_open` or `f_read` is made; if `f_mount` fails, no `f_open` and
no `f_read` call is made; if `f_open` fails, no `f_read` call is made. -/
theorem C10_no_filesystem_calls_after_failure (env : Env) (fl : Flash) :
    ∃ r, bootloader env fl = some r ∧
      (env.cardDetect ≠ 0 →
        r.calls = [Call.gpio_ll_read, Call.led_sequence sequence_t.NO_SDCARD, Call.boot] ∧
        Call.f_mount ∉ r.calls ∧ Call.f_open ∉ r.calls ∧ ∀ n, Call.f_read n ∉ r.calls) ∧
      (env.mountRes ≠ 0 → Call.f_open ∉ r.calls ∧ ∀ n, Call.f_read n ∉ r.calls) ∧
      (env.openRes ≠ 0 → ∀ n, Call.f_read n ∉ r.calls) := by
  by_cases hc : env.cardDetect = 0
  · by_cases hm : env.mountRes = 0
    · by_cases ho : env.openRes = 0
      · exact ⟨_, bootloader_update env fl hc hm ho, fun h => absurd hc h,
          fun h => absurd hm h, fun h => absurd ho h⟩
      · refine ⟨_, bootloader_open_failed env fl hc hm ho, fun h => absurd hc h,
          fun h => absurd hm h, fun _ => ?_⟩
        simp
    · refine ⟨_, bootloader_mount_failed env fl hc hm, fun h => absurd hc h, fun _ => ?_,
        fun _ => ?_⟩
      · simp
      · simp
  · refine ⟨_, bootloader_no_card env fl hc, fun _ => ?_, fun _ => ?_, fun _ => ?_⟩
    · simp
    · simp
    · simp

/-- C11 (one signal, then the boot transfer, which is last): on every path the trace is
the card-detect read, then the filesystem and loop calls of that path (none; `f_mount`;
`f_mount`, `f_open`; or `f_mount`, `f_open`, `led_swich(1,1,1,1)` and the reads and flash
operations of the loop), then one `led_sequence` call, then `boot`, which is the last
call.  The card-detect read, the signal and the boot transfer each occur exactly once, and
mount, open and the entry into the loop at most once. -/
theorem C11_one_signal_then_boot (env : Env) (fl : Flash) :
    ∃ r mid s, bootloader env fl = some r ∧
      r.calls = Call.gpio_ll_read :: mid ++ [Call.led_sequence s, Call.boot] ∧
      (mid = [] ∨ mid = [Call.f_mount] ∨ mid = [Call.f_mount, Call.f_open] ∨
        ∃ loopCalls, mid = [Call.f_mount, Call.f_open, Call.led_swich 1 1 1 1] ++ loopCalls ∧
          ∀ c, c ∈ loopCalls → c = Call.f_read PAGESIZE ∨ isFlashCall c = true) ∧
      r.calls.getLast? = some Call.boot ∧
      outcomes r.calls = [s] ∧
      r.calls.count Call.boot = 1 ∧
      r.calls.count Call.gpio_ll_read = 1 ∧
      r.calls.count Call.f_mount ≤ 1 ∧
      r.calls.count Call.f_open ≤ 1 ∧
      r.calls.count (Call.led_swich 1 1 1 1) ≤ 1 := by
  by_cases hok : env.cardDetect = 0 ∧ env.mountRes = 0 ∧ env.openRes = 0
  · obtain ⟨hc, hm, ho⟩ := hok
    have hz : ∀ c : Call, c ≠ Call.f_read PAGESIZE → isFlashCall c = false →
        ((List.range (passes env.image)).flatMap (passCalls fl env.image)).count c = 0 := by
      intro c h1 h2
      rw [List.count_eq_zero]
      intro hmem
      rcases loopCalls_kind fl env.image _ c hmem with h | h
      · exact h1 h
      · rw [h2] at h; exact Bool.false_ne_true h
    refine ⟨_, [Call.f_mount, Call.f_open, Call.led_swich 1 1 1 1] ++
      (List.range (passes env.image)).flatMap (passCalls fl env.image),
      (if (List.range (passes env.image)).any (pageDiffers fl env.image) = true
        then sequence_t.PROGRAMMED else sequence_t.JUST_BOOTED),
      bootloader_update env fl hc hm ho, ?_, ?_, ?_, ?_, ?_, ?_, ?_, ?_, ?_⟩
    · simp [prologue]
    · exact Or.inr (Or.inr (Or.inr ⟨_, rfl, loopCalls_kind fl env.image _⟩))
    · simp [List.getLast?_append]
    · exact outcomes_update fl env.image _ _
    · rw [List.count_append, List.count_append, hz Call.boot (by simp) rfl]
      simp [prologue, List.count_cons]
    · rw [List.count_append, List.count_append, hz Call.gpio_ll_read (by simp) rfl]
      simp [prologue, List.count_cons]
    · rw [List.count_append, List.count_append, hz Call.f_mount (by simp) rfl]
      simp [prologue, List.count_cons]
    · rw [List.count_append, List.count_append, hz Call.f_open (by simp) rfl]
      simp [prologue, List.count_cons]
    · rw [List.count_append, List.count_append, hz (Call.led_swich 1 1 1 1) (by simp) rfl]
      simp [prologue, List.count_cons]
  · by_cases hc : env.cardDetect = 0
    · by_cases hm : env.mountRes = 0
      · have ho : env.openRes ≠ 0 := fun h => hok ⟨hc, hm, h⟩
        refine ⟨_, [Call.f_mount, Call.f_open], sequence_t.NO_SDCARD,
          bootloader_open_failed env fl hc hm ho, rfl, ?_, rfl, rfl, ?_⟩
        · exact Or.inr (Or.inr (Or.inl rfl))
        · simp [List.count_cons]
      · refine ⟨_, [Call.f_mount], sequence_t.NO_SDCARD,
          bootloader_mount_failed env fl hc hm, rfl, ?_, rfl, rfl, ?_⟩
        · exact Or.inr (Or.inl rfl)
        · simp [List.count_cons]
    · refine ⟨_, [], sequence_t.NO_SDCARD, bootloader_no_card env fl hc, rfl, ?_, rfl, rfl, ?_⟩
      · exact Or.inl rfl
      · simp [List.count_cons]

/-- C12 (boot transfer): for every flash content `boot()` first disables the interrupts,
then sets `VTOR` to `FLASH_BASE + PAGESIZE*10`, then calls `startApplication` with the
stack pointer the 32-bit word stored at that address and the entry address the 32-bit word
stored four bytes after it. -/
theorem C12_boot_transfer (fl : Flash) :
    boot fl =
      [CpuAction.disable_irq,
       CpuAction.set_VTOR (FLASH_BASE + PAGESIZE * 10),
       CpuAction.startApplication (flashWord fl (FLASH_BASE + PAGESIZE * 10))
         (flashWord fl (FLASH_BASE + PAGESIZE * 10 + 4))] ∧
    FLASH_BASE + PAGESIZE * 10 = 0x08005000 ∧
    flashWord fl (FLASH_BASE + PAGESIZE * 10) =
      (fl 0x08005000).val + 256 * (fl 0x08005001).val + 65536 * (fl 0x08005002).val
        + 16777216 * (fl 0x08005003).val ∧
    flashWord fl (FLASH_BASE + PAGESIZE * 10 + 4) =
      (fl 0x08005004).val + 256 * (fl 0x08005005).val + 65536 * (fl 0x08005006).val
        + 16777216 * (fl 0x08005007).val := by
  refine ⟨?_, by decide, rfl, rfl⟩
  have h1 : pageAddr FIRSTPAGE = FLASH_BASE + PAGESIZE * 10 := by decide
  have h2 : (pageAddr FIRSTPAGE + 4) % 2 ^ 32 = FLASH_BASE + PAGESIZE * 10 + 4 := by decide
  unfold boot
  rw [h2, h1]

/-- C13, as stated, fails where the 32-bit address arithmetic wraps.  For page index
`2097152 = 2^21` and `size = 4` the one word is written at `0x08000000`
(`PAGESIZE * 2^21` is `2^32`, which is `0` in `uint32_t`), not at
`FLASH_BASE + PAGESIZE*n`; for page index `2031615` and `size = 2052` the word `k = 512`
is written at address `0`, below the word before it. -/
theorem C13_programPage_writes_counterexample :
    (4 % 4 = 0 ∧
      programPageWrites 2097152 [1, 2, 3, 4] 4 (fun _ => 0xFF) = [(0x08000000, 0x04030201)] ∧
      programPageWrites 2097152 [1, 2, 3, 4] 4 (fun _ => 0xFF) ≠
        (List.range (4 / 4)).map (fun k =>
          (FLASH_BASE + PAGESIZE * 2097152 + 4 * k, word32 (List.drop (4 * k) [1, 2, 3, 4])))) ∧
    (2052 % 4 = 0 ∧
      ((programPageWrites 2031615 (List.replicate 2052 0) 2052 (fun _ => 0xFF))[511]?).map
          Prod.fst = some 4294967292 ∧
      ((programPageWrites 2031615 (List.replicate 2052 0) 2052 (fun _ => 0xFF))[512]?).map
          Prod.fst = some 0) := by
  refine ⟨⟨by decide, by decide, by decide⟩, by decide, ?_, ?_⟩
  · rw [programPageWrites_eq, List.getElem?_map, List.getElem?_range (by decide)]
    decide
  · rw [programPageWrites_eq, List.getElem?_map, List.getElem?_range (by decide)]
    decide

/-- C13, amended: for every page index `n` and every `size` that is a multiple of 4 with
`FLASH_BASE + PAGESIZE*n + size <= 2^32` (the 32-bit addresses do not wrap),
`programPage(n, data, size)` issues exactly `size/4` `HAL_FLASH_Program` word writes, at
strictly increasing addresses, the `k`-th at `FLASH_BASE + PAGESIZE*n + 4*k` with value the
`k`-th 32-bit word of `data`, `size` bytes in all; and every `programPage` call of
`bootloader()` has `size = 2048` and a page index that satisfies the condition. -/
theorem C13_programPage_writes (n size : Nat) (data : List Byte) (fl : Flash)
    (h4 : size % 4 = 0) (hfit : FLASH_BASE + PAGESIZE * n + size ≤ 2 ^ 32) :
    programPageWrites n data size fl =
        (List.range (size / 4)).map (fun k =>
          (FLASH_BASE + PAGESIZE * n + 4 * k, word32 (data.drop (4 * k)))) ∧
      (programPageWrites n data size fl).length = size / 4 ∧
      4 * (programPageWrites n data size fl).length = size ∧
      ((programPageWrites n data size fl).map Prod.fst).Pairwise (fun a b => a < b) ∧
      (∀ (env : Env) (fl0 : Flash), ∃ r, bootloader env fl0 = some r ∧
        ∀ p d s, Call.programPage p d s ∈ r.calls →
          s = 2048 ∧ s % 4 = 0 ∧ FLASH_BASE + PAGESIZE * p + s ≤ 2 ^ 32) := by
  have heq : programPageWrites n data size fl =
      (List.range (size / 4)).map (fun k =>
        (FLASH_BASE + PAGESIZE * n + 4 * k, word32 (data.drop (4 * k)))) := by
    rw [programPageWrites_eq]
    apply List.map_congr_left
    intro k hk
    have hk2 : k < size / 4 := List.mem_range.1 hk
    have hpa : pageAddr n = FLASH_BASE + PAGESIZE * n := by
      by_cases hs : size = 0
      · subst hs; simp at hk2
      · exact Nat.mod_eq_of_lt (by omega)
    rw [hpa, Nat.mod_eq_of_lt (by omega)]
  refine ⟨heq, ?_, ?_, ?_, ?_⟩
  · rw [heq, List.length_map, List.length_range]
  · rw [heq, List.length_map, List.length_range]; omega
  · rw [heq, List.map_map]
    exact List.Pairwise.map _ (fun a b hab => by simp only [Function.comp]; omega)
      (List.pairwise_lt_range _)
  · intro env fl0
    obtain ⟨r, hr, hprog⟩ := bootloader_programPage_calls env fl0
    refine ⟨r, hr, ?_⟩
    intro p d s hp
    obtain ⟨hs, hp2⟩ := hprog p d s hp
    subst hs
    refine ⟨rfl, by decide, ?_⟩
    simp only [FLASH_BASE, PAGESIZE, LASTPAGE] at *
    omega

/-- C13 (amended), at page 10 and eight bytes of data. -/
theorem C13_programPage_writes_witness :
    (8 % 4 = 0 ∧ FLASH_BASE + PAGESIZE * 10 + 8 ≤ 2 ^ 32) ∧
    programPageWrites 10 [1, 2, 3, 4, 5, 6, 7, 8] 8 (fun _ => 0xFF) =
      (List.range (8 / 4)).map (fun k =>
        (FLASH_BASE + PAGESIZE * 10 + 4 * k, word32 (List.drop (4 * k) [1, 2, 3, 4, 5, 6, 7, 8]))) :=
  ⟨⟨by decide, by decide⟩,
    (C13_programPage_writes 10 8 [1, 2, 3, 4, 5, 6, 7, 8] (fun _ => 0xFF) (by decide)
      (by decide)).1⟩

/-- C14 (the loop ends): with the card there and mount and open succeeding, the loop ends
for every image of `L` bytes and the run goes on to the outcome signal and `boot`.  It
makes exactly `min (L/2048 + 1) 238` `f_read` calls, each for 2048 bytes, at most 238.  If
`L < 238*2048` it ends by the `break` of a pass whose read was short, with
`page = 10 + L/2048 < LASTPAGE`; if `L >= 238*2048` it ends with `page = LASTPAGE = 248`
after 238 full reads. -/
theorem C14_loop_terminates (env : Env) (fl : Flash) (hc : env.cardDetect = 0)
    (hm : env.mountRes = 0) (ho : env.openRes = 0) :
    ∃ st r,
      whileLoop (LASTPAGE - FIRSTPAGE + 1)
        { page := FIRSTPAGE, programmed := 0, file := env.image,
          pagedat := List.replicate 2048 0, flash := fl,
          calls := [Call.gpio_ll_read, Call.f_mount, Call.f_open, Call.led_swich 1 1 1 1] }
        = some st ∧
      bootloader env fl = some r ∧
      (∃ s, r.calls = st.calls ++ [Call.led_sequence s, Call.boot]) ∧
      r.calls.count (Call.f_read 2048) = min (env.image.length / 2048 + 1) 238 ∧
      (∀ n, Call.f_read n ∈ r.calls → n = 2048) ∧
      r.calls.count (Call.f_read 2048) ≤ 238 ∧
      (env.image.length < 238 * 2048 →
        st.page = 10 + env.image.length / 2048 ∧ st.page < LASTPAGE ∧
        (chunk env.image (env.image.length / 2048)).length < 2048 ∧
        ∃ st0, st0.page < LASTPAGE ∧ loopBody st0 = (st, true)) ∧
      (238 * 2048 ≤ env.image.length →
        st.page = LASTPAGE ∧ LASTPAGE = 248 ∧ ¬ st.page < LASTPAGE ∧
        ∀ i, i < 238 → (chunk env.image i).length = 2048) := by
  have hinit : AfterPasses fl env.image 0
      { page := FIRSTPAGE, programmed := 0, file := env.image,
        pagedat := List.replicate 2048 0, flash := fl,
        calls := [Call.gpio_ll_read, Call.f_mount, Call.f_open, Call.led_swich 1 1 1 1] } :=
    ⟨rfl, List.length_replicate _ _, (flashAfter_zero fl env.image).symm, rfl, rfl⟩
  obtain ⟨st, hrun, ⟨_, _, _, hcalls, _⟩, hpage⟩ :=
    whileLoop_spec fl env.image (LASTPAGE - FIRSTPAGE + 1) 0 _ hinit rfl (Nat.zero_le _)
      (Nat.zero_le _) (by omega)
  have hcount : (prologue ++ (List.range (passes env.image)).flatMap (passCalls fl env.image) ++
      [Call.led_sequence
        (if (List.range (passes env.image)).any (pageDiffers fl env.image) = true
          then sequence_t.PROGRAMMED else sequence_t.JUST_BOOTED), Call.boot]).count
        (Call.f_read 2048) = passes env.image := by
    have h := count_f_read_flatMap fl env.image (passes env.image)
    simp only [PAGESIZE] at h
    rw [List.count_append, List.count_append, h]
    simp [prologue, List.count_cons]
  have hp : passes env.image = min (env.image.length / 2048 + 1) 238 := by
    simp only [passes, PAGESIZE, LASTPAGE, FIRSTPAGE]
  refine ⟨st, _, hrun, bootloader_update env fl hc hm ho, ⟨_, by rw [hcalls]⟩, ?_, ?_, ?_, ?_, ?_⟩
  · rw [hcount, hp]
  · intro n hn
    exact f_read_mem_update fl env.image _ n _ hn
  · rw [hcount, hp]; omega
  · intro hL
    have hpg : st.page = 10 + env.image.length / 2048 := by
      rw [hpage]; simp only [PAGESIZE, LASTPAGE, FIRSTPAGE]; omega
    have hlt : st.page < LASTPAGE := by rw [hpg]; simp only [LASTPAGE]; omega
    refine ⟨hpg, hlt, ?_, ?_⟩
    · rw [chunk_length]; simp only [PAGESIZE]; omega
    · rcases whileLoop_exit _ _ _ hrun with h | h
      · exact absurd hlt h
      · exact h
  · intro hL
    have hpg : st.page = LASTPAGE := by
      rw [hpage]; simp only [PAGESIZE, LASTPAGE, FIRSTPAGE]; omega
    refine ⟨hpg, rfl, by rw [hpg]; exact Nat.lt_irrefl _, ?_⟩
    intro i hi
    rw [chunk_length]; simp only [PAGESIZE]; omega

/-- C14, at a run with the card in: a three-byte image and an erased flash. -/
theorem C14_loop_terminates_witness :
    ((⟨0, 0, 0, [1, 2, 3]⟩ : Env).cardDetect = 0 ∧ (⟨0, 0, 0, [1, 2, 3]⟩ : Env).mountRes = 0 ∧
      (⟨0, 0, 0, [1, 2, 3]⟩ : Env).openRes = 0) ∧
    ∃ r, bootloader ⟨0, 0, 0, [1, 2, 3]⟩ (fun _ => 0xFF) = some r ∧
      r.calls.count (Call.f_read 2048) =
        min ((⟨0, 0, 0, [1, 2, 3]⟩ : Env).image.length / 2048 + 1) 238 :=
  ⟨⟨rfl, rfl, rfl⟩, by
    obtain ⟨_, r, _, h1, _, h2, _⟩ :=
      C14_loop_terminates ⟨0, 0, 0, [1, 2, 3]⟩ (fun _ => 0xFF) rfl rfl rfl
    exact ⟨r, h1, h2⟩⟩

/-- C15 (status signalling): for each outcome `led_sequence` starts with a 300 ms delay,
makes the `led_swich` calls of that outcome's pattern four times over, then switches all
four indicators off and ends with a 300 ms delay.  The pattern is all-on, all-off twice
for `NO_SDCARD`, one lit indicator at 0, 1, 2, 3, 2, 1 for `PROGRAMMED`, and indicators
0-1, then 2-3, twice for `JUST_BOOTED`.  The three sequences of indicator states are
pairwise different and each ends in all four off; each `led_swich` writes the four
indicators in turn and waits 100 ms. -/
theorem C15_led_sequence :
    led_sequence sequence_t.NO_SDCARD =
      [LedCall.HAL_Delay 300] ++
        (List.replicate 4
          [LedCall.led_swich 1 1 1 1, LedCall.led_swich 0 0 0 0,
           LedCall.led_swich 1 1 1 1, LedCall.led_swich 0 0 0 0]).flatten ++
        [LedCall.led_swich 0 0 0 0, LedCall.HAL_Delay 300] ∧
    led_sequence sequence_t.PROGRAMMED =
      [LedCall.HAL_Delay 300] ++
        (List.replicate 4
          [LedCall.led_swich 1 0 0 0, LedCall.led_swich 0 1 0 0, LedCall.led_swich 0 0 1 0,
           LedCall.led_swich 0 0 0 1, LedCall.led_swich 0 0 1 0,
           LedCall.led_swich 0 1 0 0]).flatten ++
        [LedCall.led_swich 0 0 0 0, LedCall.HAL_Delay 300] ∧
    led_sequence sequence_t.JUST_BOOTED =
      [LedCall.HAL_Delay 300] ++
        (List.replicate 4
          [LedCall.led_swich 1 1 0 0, LedCall.led_swich 0 0 1 1,
           LedCall.led_swich 1 1 0 0, LedCall.led_swich 0 0 1 1]).flatten ++
        [LedCall.led_swich 0 0 0 0, LedCall.HAL_Delay 300] ∧
    ledStates (led_sequence sequence_t.NO_SDCARD) ≠
      ledStates (led_sequence sequence_t.PROGRAMMED) ∧
    ledStates (led_sequence sequence_t.NO_SDCARD) ≠
      ledStates (led_sequence sequence_t.JUST_BOOTED) ∧
    ledStates (led_sequence sequence_t.PROGRAMMED) ≠
      ledStates (led_sequence sequence_t.JUST_BOOTED) ∧
    (∀ s, (led_sequence s).head? = some (LedCall.HAL_Delay 300) ∧
      (led_sequence s).getLast? = some (LedCall.HAL_Delay 300) ∧
      (ledStates (led_sequence s)).getLast? = some (0, 0, 0, 0) ∧
      (ledActions (led_sequence s)).getLast? = some (LedAction.HAL_Delay 300)) ∧
    (∀ a b c d, led_swich a b c d =
      [LedAction.gpio_ll_write 0 a, LedAction.gpio_ll_write 1 b, LedAction.gpio_ll_write 2 c,
       LedAction.gpio_ll_write 3 d, LedAction.HAL_Delay 100]) := by
  refine ⟨by decide, by decide, by decide, by decide, by decide, by decide, ?_, ?_⟩
  · intro s
    cases s <;> decide
  · intro a b c d
    rfl

/-- C16 (frame): every flash byte outside the pages for which the run made a
`programPage` call is the same after the run as before it; so are, in particular, the
bytes of pages 0..9, of the pages from 248 on, and of every page `10+i` with
`i >= ceil (L/2048)`. -/
theorem C16_frame (env : Env) (fl : Flash) :
    ∃ r, bootloader env fl = some r ∧
      (∀ a, (¬ ∃ p d s, Call.programPage p d s ∈ r.calls ∧
          FLASH_BASE + 2048 * p ≤ a ∧ a < FLASH_BASE + 2048 * (p + 1)) →
        r.flash a = fl a) ∧
      (∀ a, a < FLASH_BASE + 2048 * 10 → r.flash a = fl a) ∧
      (∀ a, FLASH_BASE + 2048 * 248 ≤ a → r.flash a = fl a) ∧
      (∀ i a, (env.image.length + 2047) / 2048 ≤ i → FLASH_BASE + 2048 * (10 + i) ≤ a →
        a < FLASH_BASE + 2048 * (10 + i + 1) → r.flash a = fl a) := by
  by_cases hok : env.cardDetect = 0 ∧ env.mountRes = 0 ∧ env.openRes = 0
  · obtain ⟨hc, hm, ho⟩ := hok
    have hb := pageAddr_first
    have hple := passes_le env.image
    refine ⟨_, bootloader_update env fl hc hm ho, ?_, ?_, ?_, ?_⟩
    · intro a hno
      apply flashAfter_frame
      rintro ⟨h1, h2, h3⟩
      apply hno
      have hq : (a - pageAddr FIRSTPAGE) / PAGESIZE < passes env.image := by
        rw [Nat.div_lt_iff_lt_mul (by simp only [PAGESIZE]; omega), Nat.mul_comm]
        omega
      refine ⟨_, _, _, (programPage_mem_update _ _ _ _ _ _ _).2 ⟨_, hq, h3, rfl, rfl, rfl⟩, ?_, ?_⟩
      · simp only [PAGESIZE, FIRSTPAGE] at *; omega
      · simp only [PAGESIZE, FIRSTPAGE] at *; omega
    · intro a ha
      exact flashAfter_of_lt fl env.image _ a (by omega)
    · intro a ha
      apply flashAfter_frame
      rintro ⟨_, h2, _⟩
      simp only [PAGESIZE, LASTPAGE, FIRSTPAGE] at *
      omega
    · intro i a hi h1 h2
      apply flashAfter_frame
      rintro ⟨h3, h4, h5⟩
      have hq : (a - pageAddr FIRSTPAGE) / PAGESIZE = i := by
        simp only [PAGESIZE] at *; omega
      rw [hq, pageDiffers_of_chunk_nil fl env.image i (by
        rw [chunk_length]; simp only [PAGESIZE]; omega)] at h5
      exact Bool.false_ne_true h5
  · have h : env.cardDetect ≠ 0 ∨ env.mountRes ≠ 0 ∨ env.openRes ≠ 0 := by
      by_contra hcon
      simp only [not_or, not_not] at hcon
      exact hok hcon
    obtain ⟨calls, hrun, _⟩ := bootloader_fallback env fl h
    exact ⟨_, hrun, fun _ _ => rfl, fun _ _ => rfl, fun _ _ => rfl, fun _ _ _ _ _ => rfl⟩

/-- C17 (shape of the flash-operation trace): in every run the flash operations
(`HAL_FLASH_Unlock`, `erasePage`, `programPage`) are either none at all or
`HAL_FLASH_Unlock` followed by `erasePage p1, programPage p1, ..., erasePage pn,
programPage pn` with `p1 < p2 < ... < pn`: each `programPage` comes right after the
`erasePage` of the same page, no page is erased without being programmed, and no page is
written twice. -/
theorem C17_flash_trace_shape (env : Env) (fl : Flash) :
    ∃ r, bootloader env fl = some r ∧
      (flashCalls r.calls = [] ∨
        ∃ l : List (Nat × List Byte), l ≠ [] ∧
          (l.map Prod.fst).Pairwise (fun p q => p < q) ∧
          flashCalls r.calls =
            Call.HAL_FLASH_Unlock ::
              l.flatMap (fun x => [Call.erasePage x.1, Call.programPage x.1 x.2 2048])) := by
  by_cases hok : env.cardDetect = 0 ∧ env.mountRes = 0 ∧ env.openRes = 0
  · obtain ⟨hc, hm, ho⟩ := hok
    refine ⟨_, bootloader_update env fl hc hm ho, ?_⟩
    have hfc : flashCalls (prologue ++
        (List.range (passes env.image)).flatMap (passCalls fl env.image) ++
        [Call.led_sequence
          (if (List.range (passes env.image)).any (pageDiffers fl env.image) = true
            then sequence_t.PROGRAMMED else sequence_t.JUST_BOOTED), Call.boot]) =
        flashCalls ((List.range (passes env.image)).flatMap (passCalls fl env.image)) := by
      simp [flashCalls, List.filter_append, prologue, isFlashCall, List.filter]
    show flashCalls (_ ++ _ ++ _) = [] ∨ _
    rw [hfc, flashCalls_flatMap]
    by_cases ha : (List.range (passes env.image)).any (pageDiffers fl env.image) = true
    · right
      obtain ⟨i, hi, hdi⟩ := (any_range_iff _ _).1 ha
      refine ⟨((List.range (passes env.image)).filter (pageDiffers fl env.image)).map
        (fun i => (FIRSTPAGE + i, padded (chunk env.image i))), ?_, ?_, ?_⟩
      · intro hnil
        rw [List.map_eq_nil_iff, List.filter_eq_nil_iff] at hnil
        exact hnil i (List.mem_range.2 hi) hdi
      · rw [List.map_map]
        exact List.Pairwise.map _ (fun a b hab => by simp only [Function.comp]; omega)
          (List.Pairwise.filter _ (List.pairwise_lt_range _))
      · rw [if_pos ha, List.flatMap_map]
        rfl
    · left
      have hf : (List.range (passes env.image)).filter (pageDiffers fl env.image) = [] := by
        rw [List.filter_eq_nil_iff]
        intro i hi hdi
        exact ha ((any_range_iff _ _).2 ⟨i, List.mem_range.1 hi, hdi⟩)
      rw [if_neg ha, hf]
      rfl
  · have h : env.cardDetect ≠ 0 ∨ env.mountRes ≠ 0 ∨ env.openRes ≠ 0 := by
      by_contra hcon
      simp only [not_or, not_not] at hcon
      exact hok hcon
    obtain ⟨calls, hrun, hcalls⟩ := bootloader_fallback env fl h
    refine ⟨_, hrun, Or.inl ?_⟩
    rcases hcalls with hc | hc | hc <;> subst hc <;> rfl

/-- C18 (end-to-end boot vector): with the card there and mount and open succeeding, for
every image of at least 8 bytes the stack pointer and the entry address that `boot()`
hands to `startApplication` at the end of the run are the first and the second 32-bit
word of the image, whatever the flash held before and whether or not pages were
programmed. -/
theorem C18_boot_vector (env : Env) (fl : Flash) (hc : env.cardDetect = 0)
    (hm : env.mountRes = 0) (ho : env.openRes = 0) (h8 : 8 ≤ env.image.length) :
    ∃ r, bootloader env fl = some r ∧
      boot r.flash =
        [CpuAction.disable_irq,
         CpuAction.set_VTOR (FLASH_BASE + PAGESIZE * 10),
         CpuAction.startApplication (word32 env.image) (word32 (env.image.drop 4))] := by
  refine ⟨_, bootloader_update env fl hc hm ho, ?_⟩
  have hb : ∀ j, j < 8 → env.image.getD j 0 =
      flashAfter fl env.image (passes env.image) (FLASH_BASE + 2048 * 10 + j) := fun j hj =>
    getD_of_getElem? _ _ _ (flashAfter_image fl env.image j (by omega))
  have h1 : pageAddr FIRSTPAGE = FLASH_BASE + 2048 * 10 := pageAddr_first
  have h2 : (pageAddr FIRSTPAGE + 4) % 2 ^ 32 = FLASH_BASE + 2048 * 10 + 4 := by decide
  have h3 : FLASH_BASE + PAGESIZE * 10 = FLASH_BASE + 2048 * 10 := rfl
  show boot (flashAfter fl env.image (passes env.image)) = _
  unfold boot
  rw [h2, h1, h3]
  simp only [flashWord, word32, getD_drop, hb 0 (by omega), hb 1 (by omega), hb 2 (by omega),
    hb 3 (by omega), hb (4 + 0) (by omega), hb (4 + 1) (by omega), hb (4 + 2) (by omega),
    hb (4 + 3) (by omega), Nat.add_zero, Nat.add_assoc]

/-- C18, at an eight-byte image on an erased flash. -/
theorem C18_boot_vector_witness :
    ((⟨0, 0, 0, [1, 2, 3, 4, 5, 6, 7, 8]⟩ : Env).cardDetect = 0 ∧
      (⟨0, 0, 0, [1, 2, 3, 4, 5, 6, 7, 8]⟩ : Env).mountRes = 0 ∧
      (⟨0, 0, 0, [1, 2, 3, 4, 5, 6, 7, 8]⟩ : Env).openRes = 0 ∧
      8 ≤ (⟨0, 0, 0, [1, 2, 3, 4, 5, 6, 7, 8]⟩ : Env).image.length) ∧
    ∃ r, bootloader ⟨0, 0, 0, [1, 2, 3, 4, 5, 6, 7, 8]⟩ (fun _ => 0xFF) = some r ∧
      boot r.flash =
        [CpuAction.disable_irq,
         CpuAction.set_VTOR (FLASH_BASE + PAGESIZE * 10),
         CpuAction.startApplication (word32 [1, 2, 3, 4, 5, 6, 7, 8])
           (word32 (List.drop 4 [1, 2, 3, 4, 5, 6, 7, 8]))] :=
  ⟨⟨rfl, rfl, rfl, by decide⟩,
    C18_boot_vector ⟨0, 0, 0, [1, 2, 3, 4, 5, 6, 7, 8]⟩ (fun _ => 0xFF) rfl rfl rfl (by decide)⟩

end Bootloader
